import Mathlib

/-!
Verification development for the mvt-wrangler repository.

The Rust sources under src/ are shallowly embedded as Lean definitions:

* serde_json values (`serde_json::Value`) are the inductive `Json`; numbers are
  modelled as either an integer or a non-integer number carried by its decimal
  rendering (the source only uses `as_i64`, `as_u64`, `as_str` and `to_string`
  on them; claims do not exercise 64-bit overflow).
* MVT values (`geozero::mvt::tile::Value`, the enum form used by
  `executor.rs`/`transform.rs`) are `MvtValue`; float payloads are carried by
  their decimal rendering, since the source only renders or compares them.
* The external geometry machinery (the `geo`/`geojson` crates: geometry
  construction, `Intersects`, the f64 Web-Mercator projection) is modelled as
  an abstract geometry type together with an oracle structure `GeoModel`; every
  claim settled here is independent of the oracle values, and the source logic
  that merely dispatches on geometry variants is kept as code over the
  oracle's variant tag.
* The external `regex` crate is the oracle structure `RegexModel`
  (pattern validity and match outcome); the regex cache in
  `FilterExecutor::get_regex` is pure memoization and is dropped.
* Fallible Rust functions returning `anyhow::Result` become
  `Except String`; a Rust panic (out-of-bounds slice index in
  `transform_tile`) is modelled as an `Except.error`.
* `HashMap` is modelled as an association list whose lookup returns the first
  matching entry and whose insert conses at the front (this reproduces the
  lookup/override semantics; iteration order is not relied on by any claim).
-/

/-- Numbers of `serde_json::Value`: an integer, or a non-integer number
represented by its decimal rendering. -/
inductive JsonNum where
  | int (i : Int)
  | float (repr : String)
deriving Repr, DecidableEq

/-- Model of `serde_json::Value`. -/
inductive Json where
  | null
  | bool (b : Bool)
  | num (n : JsonNum)
  | str (s : String)
  | arr (elems : List Json)
  | obj (fields : List (String × Json))
deriving Repr

/-- Model of `serde_json::Value::as_str`. -/
def Json.asStr : Json → Option String
  | .str s => some s
  | _ => none

/-- Model of `serde_json::Number::to_string`. -/
def JsonNum.render : JsonNum → String
  | .int i => toString i
  | .float r => r

/-- Model of `serde_json::Value::as_i64` (integral numbers only). -/
def Json.asI64 : Json → Option Int
  | .num (.int i) => some i
  | _ => none

/-- Model of `serde_json::Value::as_u64` (non-negative integral numbers). -/
def Json.asU64 : Json → Option Nat
  | .num (.int i) => if 0 ≤ i then some i.toNat else none
  | _ => none

/-- Model of Rust `bool::to_string`. -/
def boolRender (b : Bool) : String :=
  if b then ("true") else ("false")

/-- Model of `geozero::mvt::tile::Value` as used by `executor.rs` and
`transform.rs` (enum form); float and double payloads are carried by their
decimal rendering. -/
inductive MvtValue where
  | StringValue (s : String)
  | FloatValue (f : String)
  | DoubleValue (d : String)
  | IntValue (i : Int)
  | UintValue (u : Nat)
  | SintValue (s : Int)
  | BoolValue (b : Bool)
deriving Repr, DecidableEq

/-- Embeds `FilterExecutor::value_to_string` (src/src/filtering/executor.rs). -/
def value_to_string : MvtValue → String
  | .StringValue s => s
  | .FloatValue f => f
  | .DoubleValue d => d
  | .IntValue i => toString i
  | .UintValue u => toString u
  | .SintValue s => toString s
  | .BoolValue b => boolRender b

/-- Embeds the `Operator` enum (src/src/filtering/data.rs). The source's
`Type` variant is spelled `Type'` because `Type` is a Lean keyword. -/
inductive Operator where
  | Equal
  | NotEqual
  | LessThan
  | GreaterThan
  | LessThanOrEqual
  | GreaterThanOrEqual
  | Any
  | All
  | None
  | Not
  | In
  | StartsWith
  | EndsWith
  | RegexMatch
  | RegexCapture
  | Boolean
  | Literal
  | Tag
  | Key
  | Type'
deriving Repr, DecidableEq

/-- Embeds `Operator::from_str` (src/src/filtering/data.rs). -/
def Operator.from_str (s : String) : Except String Operator :=
  if s = "==" then .ok .Equal
  else if s = "!=" then .ok .NotEqual
  else if s = "<" then .ok .LessThan
  else if s = ">" then .ok .GreaterThan
  else if s = "<=" then .ok .LessThanOrEqual
  else if s = ">=" then .ok .GreaterThanOrEqual
  else if s = "any" then .ok .Any
  else if s = "all" then .ok .All
  else if s = "none" then .ok .None
  else if s = "not" then .ok .Not
  else if s = "!" then .ok .Not
  else if s = "in" then .ok .In
  else if s = "starts-with" then .ok .StartsWith
  else if s = "ends-with" then .ok .EndsWith
  else if s = "regex-match" then .ok .RegexMatch
  else if s = "regex-capture" then .ok .RegexCapture
  else if s = "boolean" then .ok .Boolean
  else if s = "literal" then .ok .Literal
  else if s = "tag" then .ok .Tag
  else if s = "key" then .ok .Key
  else if s = "type" then .ok .Type'
  else .error ("Unknown operator: " ++ s)

/-- Rust `Debug` rendering of an `Operator` variant, used in the
"not yet implemented" error message of `evaluate_operator`. -/
def Operator.debugName : Operator → String
  | .Equal => "Equal"
  | .NotEqual => "NotEqual"
  | .LessThan => "LessThan"
  | .GreaterThan => "GreaterThan"
  | .LessThanOrEqual => "LessThanOrEqual"
  | .GreaterThanOrEqual => "GreaterThanOrEqual"
  | .Any => "Any"
  | .All => "All"
  | .None => "None"
  | .Not => "Not"
  | .In => "In"
  | .StartsWith => "StartsWith"
  | .EndsWith => "EndsWith"
  | .RegexMatch => "RegexMatch"
  | .RegexCapture => "RegexCapture"
  | .Boolean => "Boolean"
  | .Literal => "Literal"
  | .Tag => "Tag"
  | .Key => "Key"
  | .Type' => "Type"

/-- Embeds `EvaluationContext` (src/src/filtering/executor.rs). -/
structure EvaluationContext where
  layer_name : String
  geometry_type : String
  tags : List (String × String)
  current_key : Option String
  current_value : Option String
deriving Repr

/-- Oracle for the external `regex` crate: whether a pattern compiles, and the
match outcome of a compiled pattern on a haystack. -/
structure RegexModel where
  valid : String → Bool
  is_match : String → String → Bool

/-- Embeds `FilterExecutor::evaluate_operand` (src/src/filtering/executor.rs):
evaluates an operand to a string value. -/
def evaluate_operand (operand : Json) (context : EvaluationContext) :
    Except String String :=
  match operand with
  | Json.str s => .ok s
  | Json.num n => .ok n.render
  | Json.bool b => .ok (boolRender b)
  | Json.arr arrv =>
    match arrv with
    | [] => .error ("Empty array operand")
    | op :: rest =>
      match op.asStr with
      | none => .error ("Array operand must start with operator string")
      | some operator_str =>
        if operator_str = "tag" then
          match rest with
          | [karg] =>
            match karg.asStr with
            | some key => .ok ((context.tags.lookup key).getD (""))
            | none => .error ("tag key must be string")
          | _ => .error ("tag operator requires exactly 1 argument")
        else if operator_str = "key" then
          match rest with
          | [] => .ok (context.current_key.getD (""))
          | _ => .error ("key operator requires no arguments")
        else if operator_str = "$type" then
          match rest with
          | [] => .ok context.geometry_type
          | _ => .error ("$type operator requires no arguments")
        else if operator_str = "literal" then
          match rest with
          | [litv] =>
            match litv with
            | Json.str s => .ok s
            | Json.num n => .ok n.render
            | Json.bool b => .ok (boolRender b)
            | _ => .error ("literal value must be string, number, or boolean")
          | _ => .error ("literal operator requires exactly 1 argument")
        else .error ("Unknown operand operator: " ++ operator_str)
  | _ => .error ("Unsupported operand type")

/-- Embeds `FilterExecutor::evaluate_array_operand`
(src/src/filtering/executor.rs): evaluates an operand that should be an array
of strings. -/
def evaluate_array_operand (operand : Json) (_context : EvaluationContext) :
    Except String (List String) :=
  match operand with
  | Json.arr arrv =>
    match arrv with
    | [] => .error ("Empty array operand")
    | op :: rest =>
      match op.asStr with
      | none => .error ("Array operand must start with operator string")
      | some operator_str =>
        if operator_str = "literal" then
          match rest with
          | [litv] =>
            match litv with
            | Json.arr literal_arr =>
              literal_arr.mapM (fun item =>
                match item with
                | Json.str s => .ok s
                | Json.num n => .ok n.render
                | Json.bool b => .ok (boolRender b)
                | _ =>
                  .error ("literal array items must be string, number, or boolean"))
            | _ => .error ("literal operator for array must have array argument")
          | _ => .error ("literal operator requires exactly 1 argument")
        else .error ("Unsupported array operand operator: " ++ operator_str)
  | _ => .error ("Array operand must be array")

mutual

/-- Embeds `FilterExecutor::evaluate_expression`
(src/src/filtering/executor.rs). -/
def evaluate_expression (rx : RegexModel) (context : EvaluationContext) :
    Json → Except String Bool
  | Json.arr arrv =>
    match arrv with
    | [] => .error ("Empty expression array")
    | op :: rest =>
      match op.asStr with
      | none => .error ("First element must be operator string")
      | some operator_str =>
        match Operator.from_str operator_str with
        | .error e => .error e
        | .ok operator => evaluate_operator rx context operator rest
  | Json.bool b => .ok b
  | _ => .error ("Expression must be array or boolean")

/-- Embeds `FilterExecutor::evaluate_operator`
(src/src/filtering/executor.rs). The source also has a `NotIn` match arm, but
the `Operator` enum in data.rs has no `NotIn` variant, so that arm has no
corresponding case here. Comparison operators and all remaining variants fall
into the source's catch-all "not yet implemented" error. -/
def evaluate_operator (rx : RegexModel) (context : EvaluationContext) :
    Operator → List Json → Except String Bool
  | Operator.Equal, operands =>
    match operands with
    | [a, b] => do
      let left ← evaluate_operand a context
      let right ← evaluate_operand b context
      pure (left = right)
    | _ => .error ("== requires exactly 2 operands")
  | Operator.NotEqual, operands =>
    match operands with
    | [a, b] => do
      let left ← evaluate_operand a context
      let right ← evaluate_operand b context
      pure (left ≠ right)
    | _ => .error ("!= requires exactly 2 operands")
  | Operator.Any, operands => evalAnyList rx context operands
  | Operator.All, operands => evalAllList rx context operands
  | Operator.None, operands => evalNoneList rx context operands
  | Operator.Not, operands =>
    match operands with
    | [x] => do pure (!(← evaluate_expression rx context x))
    | _ => .error ("not requires exactly 1 operand")
  | Operator.In, operands =>
    match operands with
    | [a, b] => do
      let value ← evaluate_operand a context
      let array ← evaluate_array_operand b context
      pure (array.contains value)
    | _ => .error ("in requires exactly 2 operands")
  | Operator.StartsWith, operands =>
    match operands with
    | [a, b] => do
      let string ← evaluate_operand a context
      let pre ← evaluate_operand b context
      pure (string.startsWith pre)
    | _ => .error ("starts-with requires exactly 2 operands")
  | Operator.EndsWith, operands =>
    match operands with
    | [a, b] => do
      let string ← evaluate_operand a context
      let suffix ← evaluate_operand b context
      pure (string.endsWith suffix)
    | _ => .error ("ends-with requires exactly 2 operands")
  | Operator.RegexMatch, operands =>
    match operands with
    | [a, b] => do
      let string ← evaluate_operand a context
      let pattern ← evaluate_operand b context
      if rx.valid pattern then pure (rx.is_match pattern string)
      else .error ("Invalid regex pattern: " ++ pattern)
    | _ => .error ("regex-match requires exactly 2 operands")
  | operator, _ =>
    .error ("Operator " ++ operator.debugName ++ " not yet implemented")

/-- Loop body of the `Operator::Any` arm of `evaluate_operator`: return true
on the first operand evaluating true, false when the list is exhausted. -/
def evalAnyList (rx : RegexModel) (context : EvaluationContext) :
    List Json → Except String Bool
  | [] => .ok false
  | x :: xs => do
    if (← evaluate_expression rx context x) then pure true
    else evalAnyList rx context xs

/-- Loop body of the `Operator::All` arm of `evaluate_operator`: return false
on the first operand evaluating false, true when the list is exhausted. -/
def evalAllList (rx : RegexModel) (context : EvaluationContext) :
    List Json → Except String Bool
  | [] => .ok true
  | x :: xs => do
    if (← evaluate_expression rx context x) then evalAllList rx context xs
    else pure false

/-- Loop body of the `Operator::None` arm of `evaluate_operator`: return false
on the first operand evaluating true, true when the list is exhausted. -/
def evalNoneList (rx : RegexModel) (context : EvaluationContext) :
    List Json → Except String Bool
  | [] => .ok true
  | x :: xs => do
    if (← evaluate_expression rx context x) then pure false
    else evalNoneList rx context xs

end

/-- Variant tag of a `geo_types::Geometry` value, as far as the source
dispatches on it (`apply_feature_filters` and `transform_tile` match on the
Point/LineString/Polygon variants and their multi-variants; everything else
falls into a catch-all). -/
inductive GeomKind where
  | point
  | lineString
  | polygon
  | multiPoint
  | multiLineString
  | multiPolygon
  | other
deriving Repr, DecidableEq

/-- Embeds `LayerFilter` (src/src/filtering/data.rs): two optional JSON
expressions. -/
structure LayerFilter where
  feature : Option Json
  tag : Option Json
deriving Repr

/-- Embeds `FilterProperties` (src/src/filtering/data.rs); the `layers`
HashMap is an association list. -/
structure FilterProperties where
  id : Option String
  description : Option String
  layers : List (String × LayerFilter)
deriving Repr

/-- Embeds `FilterFeature` (src/src/filtering/data.rs), parametric in the
GeoJSON geometry type `GJ` of the external `geojson` crate. -/
structure FilterFeature (GJ : Type) where
  feature_type : String
  geometry : GJ
  properties : FilterProperties

/-- Embeds `FilterCollection` (src/src/filtering/data.rs). -/
structure FilterCollection (GJ : Type) where
  feature_type : String
  features : List (FilterFeature GJ)

/-- Embeds `TileCoordinates` (z/x/y triple used by `transform.rs`). -/
structure TileCoordinates where
  z : Nat
  x : Nat
  y : Nat
deriving Repr, DecidableEq

/-- Embeds `geozero::mvt::tile::Feature` (prost struct): id, flat tag index
list, geometry-type tag and encoded geometry commands. -/
structure Feature where
  id : Option Nat
  tags : List Nat
  ftype : Option Nat
  geometry : List Nat
deriving Repr, DecidableEq

/-- Embeds `geozero::mvt::tile::Layer`. -/
structure Layer where
  version : Nat
  name : String
  features : List Feature
  keys : List String
  values : List MvtValue
  extent : Option Nat
deriving Repr, DecidableEq

/-- Embeds `geozero::mvt::Tile`. -/
structure Tile where
  layers : List Layer
deriving Repr, DecidableEq

/-- Oracle bundle for the external `geo`/`geojson` crates: geometry parsing
(`FilterExecutor::parse_geojson_geometry`, which builds f64 geometries),
`geo::Intersects`, the variant tag of a geometry, `Feature::to_geo` of
geozero, and the two f64 helpers of transform.rs (`project_to_tile`,
`bbox_intersects_tile`). All claims settled below hold for every value of
this oracle. -/
structure GeoModel (GJ G : Type) where
  parse_geojson_geometry : GJ → Except String G
  intersects : G → G → Bool
  kind : G → GeomKind
  to_geo : Feature → Except String G
  project_to_tile : G → TileCoordinates → Nat → G
  bbox_intersects_tile : G → Nat → Bool

/-- Loop of `FilterExecutor::find_layer_filter`
(src/src/filtering/executor.rs) over the filter features: parse the region
geometry, skip non-intersecting regions, return the layer-specific entry,
else the wildcard entry, else continue with the remaining regions. -/
def find_layer_filter_go {GJ G : Type} (gm : GeoModel GJ G)
    (layer_name : String) (feature_geometry : G) :
    List (FilterFeature GJ) → Except String (Option LayerFilter)
  | [] => .ok none
  | filter_feature :: rest => do
    let filter_geometry ← gm.parse_geojson_geometry filter_feature.geometry
    if !(gm.intersects feature_geometry filter_geometry) then
      find_layer_filter_go gm layer_name feature_geometry rest
    else
      match filter_feature.properties.layers.lookup layer_name with
      | some layer_filter => pure (some layer_filter)
      | none =>
        match filter_feature.properties.layers.lookup ("*") with
        | some layer_filter => pure (some layer_filter)
        | none => find_layer_filter_go gm layer_name feature_geometry rest

/-- Embeds `FilterExecutor::find_layer_filter`
(src/src/filtering/executor.rs). -/
def find_layer_filter {GJ G : Type} (gm : GeoModel GJ G)
    (filters : FilterCollection GJ) (layer_name : String)
    (feature_geometry : G) : Except String (Option LayerFilter) :=
  find_layer_filter_go gm layer_name feature_geometry filters.features

/-- Model of `HashMap::insert` on the association-list representation: cons at
the front, so the first matching lookup sees the latest insert. -/
def insertTag (tags : List (String × String)) (k v : String) :
    List (String × String) :=
  (k, v) :: tags

/-- Loop of `FilterExecutor::extract_feature_tags`
(src/src/filtering/executor.rs) over the even chunks of the tag list:
out-of-range indices are skipped, in-range pairs are inserted into the map. -/
def extract_pairs (layer_keys : List String) (layer_values : List MvtValue) :
    List (Nat × Nat) → List (String × String) → List (String × String)
  | [], tags => tags
  | (key_index, value_index) :: rest, tags =>
    if h : key_index < layer_keys.length ∧ value_index < layer_values.length then
      extract_pairs layer_keys layer_values rest
        (insertTag tags (layer_keys.get ⟨key_index, h.1⟩)
          (value_to_string (layer_values.get ⟨value_index, h.2⟩)))
    else
      extract_pairs layer_keys layer_values rest tags

/-- Model of `chunks_exact(2)` on the flat tag list: the trailing element of
an odd-length list belongs to no chunk. -/
def chunksExact2 : List Nat → List (Nat × Nat)
  | a :: b :: rest => (a, b) :: chunksExact2 rest
  | _ => []

/-- Embeds `FilterExecutor::extract_feature_tags`
(src/src/filtering/executor.rs). The source returns `Result` but never
constructs an error. -/
def extract_feature_tags (feature : Feature) (layer_keys : List String)
    (layer_values : List MvtValue) : Except String (List (String × String)) :=
  .ok (extract_pairs layer_keys layer_values (chunksExact2 feature.tags) [])

/-- Loop of `FilterExecutor::filter_tags` (src/src/filtering/executor.rs)
over the even chunks of the tag list: out-of-range pairs are skipped, each
in-range pair is kept iff the tag expression evaluates false in the context
rebound to that pair. -/
def filter_tags_go (rx : RegexModel) (layer_keys : List String)
    (layer_values : List MvtValue) (tag_expr : Json)
    (base_context : EvaluationContext) :
    List (Nat × Nat) → List Nat → Except String (List Nat)
  | [], acc => .ok acc
  | (key_index, value_index) :: rest, acc =>
    if h : key_index < layer_keys.length ∧ value_index < layer_values.length then do
      let key := layer_keys.get ⟨key_index, h.1⟩
      let value := value_to_string (layer_values.get ⟨value_index, h.2⟩)
      let tag_context : EvaluationContext :=
        { base_context with current_key := some key, current_value := some value }
      let should_remove ← evaluate_expression rx tag_context tag_expr
      if should_remove then
        filter_tags_go rx layer_keys layer_values tag_expr base_context rest acc
      else
        filter_tags_go rx layer_keys layer_values tag_expr base_context rest
          (acc ++ [key_index, value_index])
    else
      filter_tags_go rx layer_keys layer_values tag_expr base_context rest acc

/-- Embeds `FilterExecutor::filter_tags` (src/src/filtering/executor.rs). -/
def filter_tags (rx : RegexModel) (feature : Feature)
    (layer_keys : List String) (layer_values : List MvtValue)
    (tag_expr : Json) (base_context : EvaluationContext) :
    Except String (List Nat) :=
  filter_tags_go rx layer_keys layer_values tag_expr base_context
    (chunksExact2 feature.tags) []

/-- Embeds the geometry-type match at the top of
`FilterExecutor::apply_feature_filters` (src/src/filtering/executor.rs). -/
def geometry_type_name (k : GeomKind) : Except String String :=
  match k with
  | .point => .ok ("Point")
  | .lineString => .ok ("LineString")
  | .polygon => .ok ("Polygon")
  | .multiPoint => .ok ("Point")
  | .multiLineString => .ok ("LineString")
  | .multiPolygon => .ok ("Polygon")
  | .other => .error ("Unsupported geometry type")

/-- Embeds `FilterExecutor::apply_feature_filters`
(src/src/filtering/executor.rs): returns whether to keep the feature and the
tag index list to keep. -/
def apply_feature_filters {GJ G : Type} (gm : GeoModel GJ G) (rx : RegexModel)
    (filters : FilterCollection GJ) (feature : Feature) (feature_geometry : G)
    (layer_name : String) (layer_keys : List String)
    (layer_values : List MvtValue) : Except String (Bool × List Nat) := do
  let tags ← extract_feature_tags feature layer_keys layer_values
  let geometry_type ← geometry_type_name (gm.kind feature_geometry)
  let context : EvaluationContext :=
    { layer_name := layer_name, geometry_type := geometry_type, tags := tags,
      current_key := none, current_value := none }
  let layer_filter ← find_layer_filter gm filters layer_name feature_geometry
  let keep_feature ←
    match layer_filter with
    | some lf =>
      match lf.feature with
      | some feature_expr => do
        let should_remove ← evaluate_expression rx context feature_expr
        pure (!should_remove)
      | none => pure true
    | none => pure true
  if !keep_feature then
    return (false, [])
  let filtered_tags ←
    match layer_filter with
    | some lf =>
      match lf.tag with
      | some tag_expr =>
        filter_tags rx feature layer_keys layer_values tag_expr context
      | none => pure feature.tags
    | none => pure feature.tags
  pure (true, filtered_tags)

/-- Character-level model of `str::starts_with` (kept at the `List Char`
level so that concrete instances reduce inside the kernel). -/
def strStartsWith (s pre : String) : Bool := pre.data.isPrefixOf s.data

/-- Character-level model of dropping a prefix of characters. -/
def strDrop (s : String) (n : Nat) : String := ⟨s.data.drop n⟩

/-- Character-level model of `str::contains` for a single character. -/
def strContains (s : String) (c : Char) : Bool := s.data.contains c

/-- Model of the `NAME_MATCHER` regex `^name:?(.*)$` of transform.rs applied
to a key: the capture group, when the key matches. The pattern matches
exactly the keys that start with `name`, optionally followed by one `:`,
whose remainder contains no newline (the default `.` does not cross a
newline and `$` anchors the end of the haystack). -/
def nameCapture (key : String) : Option String :=
  if strStartsWith key ("name") then
    let rest := strDrop key 4
    let lang := if strStartsWith rest (":") then strDrop rest 1 else rest
    if strContains lang ('\n') then none else some lang
  else none

/-- Model of `Iterator::position` with an equality predicate: the index of
the first occurrence. -/
def position? {α : Type} [DecidableEq α] : List α → α → Option Nat
  | [], _ => none
  | y :: ys, x => if y = x then some 0 else (position? ys x).map (· + 1)

/-- Embeds the `search-then-append` interning of transform.rs
(`keys.iter().position(|k| k == key)` followed by a push when absent):
returns the updated dictionary and the index of the entry. -/
def internIdx {α : Type} [DecidableEq α] (xs : List α) (x : α) :
    List α × Nat :=
  match position? xs x with
  | some idx => (xs, idx)
  | none => (xs ++ [x], xs.length)

/-- Embeds the per-feature tag rebuild loop of `transform_tile`
(src/src/transform.rs, lines 118-160): no bounds check (the Rust slice index
panics, modelled as an error), the built-in name-language and `pgf:name:`
filters drop tags, surviving tags are interned into the fresh
dictionaries. -/
def transform_tags_static (layer_keys : List String)
    (layer_values : List MvtValue) :
    List (Nat × Nat) → List String → List MvtValue → List Nat →
    Except String (List String × List MvtValue × List Nat)
  | [], keys, values, new_tags => .ok (keys, values, new_tags)
  | (key_index, value_index) :: rest, keys, values, new_tags =>
    match layer_keys.get? key_index, layer_values.get? value_index with
    | some key, some value =>
      let name_skip : Bool :=
        match nameCapture key with
        | some lang => lang ≠ ("") ∧ lang ≠ ("ja")
        | none => false
      if name_skip then
        transform_tags_static layer_keys layer_values rest keys values new_tags
      else if strStartsWith key ("pgf:name:") then
        transform_tags_static layer_keys layer_values rest keys values new_tags
      else
        let kp := internIdx keys key
        let vp := internIdx values value
        transform_tags_static layer_keys layer_values rest kp.1 vp.1
          (new_tags ++ [kp.2, vp.2])
    | _, _ => .error ("index out of bounds")

/-- Embeds the per-layer feature loop of `transform_tile`
(src/src/transform.rs): geometry-gated removal of whole features when a
filter geometry is present, then the tag rebuild; kept features are appended
with their rebuilt tag list. -/
def transform_features_static {GJ G : Type} (gm : GeoModel GJ G)
    (layer_name : String) (layer_keys : List String)
    (layer_values : List MvtValue) (filter_geometry : Option G) :
    List Feature → List String → List MvtValue → List Feature →
    Except String (List String × List MvtValue × List Feature)
  | [], keys, values, features => .ok (keys, values, features)
  | feature :: rest, keys, values, features => do
    let skip : Bool ←
      match filter_geometry with
      | some fg => do
        let geometry ← gm.to_geo feature
        if gm.intersects geometry fg then
          if layer_name = ("boundaries") ∨ layer_name = ("roads")
              ∨ layer_name = ("buildings") then
            pure true
          else if (layer_name = ("earth") ∨ layer_name = ("water")
              ∨ layer_name = ("pois") ∨ layer_name = ("places"))
              ∧ gm.kind geometry = GeomKind.point then
            pure true
          else
            pure false
        else
          pure false
      | none => pure false
    if skip then
      transform_features_static gm layer_name layer_keys layer_values
        filter_geometry rest keys values features
    else do
      let res ← transform_tags_static layer_keys layer_values
        (chunksExact2 feature.tags) keys values []
      transform_features_static gm layer_name layer_keys layer_values
        filter_geometry rest res.1 res.2.1
        (features ++ [{ feature with tags := res.2.2 }])

/-- Embeds the per-layer body of `transform_tile` (src/src/transform.rs):
project the optional filter geometry to tile-local coordinates, drop it when
its bounding box misses the tile, then rebuild features and dictionaries. -/
def transform_layer_static {GJ G : Type} (gm : GeoModel GJ G)
    (coords : TileCoordinates) (filter_geometry : Option G) (layer : Layer) :
    Except String Layer := do
  let extent := layer.extent.getD 4096
  let filter_geometry :=
    (filter_geometry.map (fun geom =>
      let tile_geometry := gm.project_to_tile geom coords extent
      if gm.bbox_intersects_tile tile_geometry extent then some tile_geometry
      else none)).join
  let res ← transform_features_static gm layer.name layer.keys layer.values
    filter_geometry layer.features [] [] []
  pure { layer with keys := res.1, values := res.2.1, features := res.2.2 }

/-- Embeds `transform_tile` (src/src/transform.rs) at the decoded-tile level
(the protobuf decode/encode of the prost crate frames this function and is
outside the embedding). -/
def transform_tile {GJ G : Type} (gm : GeoModel GJ G)
    (coords : TileCoordinates) (filter_geometry : Option G) (tile : Tile) :
    Except String Tile := do
  let layers ← tile.layers.mapM (transform_layer_static gm coords filter_geometry)
  pure { layers := layers }

/-- Embeds the per-feature tag rebuild loop of `transform_tile_dynamic`
(src/src/transform.rs, lines 219-250): pairs with out-of-range indices are
skipped, the rest are interned into the fresh dictionaries. -/
def transform_tags_dynamic (layer_keys : List String)
    (layer_values : List MvtValue) :
    List (Nat × Nat) → List String → List MvtValue → List Nat →
    List String × List MvtValue × List Nat
  | [], keys, values, new_tags => (keys, values, new_tags)
  | (key_index, value_index) :: rest, keys, values, new_tags =>
    if h : key_index < layer_keys.length ∧ value_index < layer_values.length then
      let key := layer_keys.get ⟨key_index, h.1⟩
      let value := layer_values.get ⟨value_index, h.2⟩
      let kp := internIdx keys key
      let vp := internIdx values value
      transform_tags_dynamic layer_keys layer_values rest kp.1 vp.1
        (new_tags ++ [kp.2, vp.2])
    else
      transform_tags_dynamic layer_keys layer_values rest keys values new_tags

/-- Embeds the per-layer feature loop of `transform_tile_dynamic`
(src/src/transform.rs): the feature geometry is materialized
unconditionally, the dynamic filter decides keep/drop and the surviving tag
index list, then the dictionaries are rebuilt. -/
def transform_features_dynamic {GJ G : Type} (gm : GeoModel GJ G)
    (rx : RegexModel) (filters : Option (FilterCollection GJ))
    (layer_name : String) (layer_keys : List String)
    (layer_values : List MvtValue) :
    List Feature → List String → List MvtValue → List Feature →
    Except String (List String × List MvtValue × List Feature)
  | [], keys, values, features => .ok (keys, values, features)
  | feature :: rest, keys, values, features => do
    let geometry ← gm.to_geo feature
    let kept : Option Feature ←
      match filters with
      | some fc => do
        let res ← apply_feature_filters gm rx fc feature geometry layer_name
          layer_keys layer_values
        if res.1 then pure (some { feature with tags := res.2 })
        else pure none
      | none => pure (some feature)
    match kept with
    | none =>
      transform_features_dynamic gm rx filters layer_name layer_keys
        layer_values rest keys values features
    | some f2 =>
      let res := transform_tags_dynamic layer_keys layer_values
        (chunksExact2 f2.tags) keys values []
      transform_features_dynamic gm rx filters layer_name layer_keys
        layer_values rest res.1 res.2.1
        (features ++ [{ f2 with tags := res.2.2 }])

/-- Embeds the per-layer body of `transform_tile_dynamic`
(src/src/transform.rs). -/
def transform_layer_dynamic {GJ G : Type} (gm : GeoModel GJ G)
    (rx : RegexModel) (filters : Option (FilterCollection GJ))
    (layer : Layer) : Except String Layer := do
  let res ← transform_features_dynamic gm rx filters layer.name layer.keys
    layer.values layer.features [] [] []
  pure { layer with keys := res.1, values := res.2.1, features := res.2.2 }

/-- Embeds `transform_tile_dynamic` (src/src/transform.rs) at the
decoded-tile level. -/
def transform_tile_dynamic {GJ G : Type} (gm : GeoModel GJ G)
    (rx : RegexModel) (filters : Option (FilterCollection GJ)) (tile : Tile) :
    Except String Tile := do
  let layers ← tile.layers.mapM (transform_layer_dynamic gm rx filters)
  pure { layers := layers }

/-- State of the writer task of `process_tiles` (src/src/processing.rs,
lines 126-146): the next expected sequence index, the reorder buffer (the
`BTreeMap`, modelled as a key/payload list), and the sequence of
`add_tile` calls issued so far. -/
structure WriterState (α : Type) where
  next : Nat
  buf : List (Nat × α)
  written : List (Nat × α)
deriving Repr, DecidableEq

/-- Model of `BTreeMap::remove` on the list representation: remove the first
entry with the given key, returning its payload and the remaining list. -/
def removeKey {α : Type} : List (Nat × α) → Nat → Option (α × List (Nat × α))
  | [], _ => none
  | (k, v) :: rest, key =>
    if k = key then some (v, rest)
    else
      match removeKey rest key with
      | some (v2, rest2) => some (v2, (k, v) :: rest2)
      | none => none

/-- Model of `BTreeMap::insert` on the list representation (sequence indices
are pairwise distinct in every run, so placement is irrelevant to
`removeKey`). -/
def bufInsert {α : Type} (buf : List (Nat × α)) (i : Nat) (x : α) :
    List (Nat × α) :=
  buf ++ [(i, x)]

/-- Fuel-indexed unfolding of the inner `while let Some(v) = buf.remove(&next)`
drain loop of the writer (src/src/processing.rs, lines 137-142). Each
iteration removes one buffer entry, so `buf.length` fuel makes this exactly
the while loop. -/
def drainAux {α : Type} : Nat → WriterState α → WriterState α
  | 0, st => st
  | fuel + 1, st =>
    match removeKey st.buf st.next with
    | none => st
    | some (v, buf2) =>
      drainAux fuel
        { next := st.next + 1, buf := buf2,
          written := st.written ++ [(st.next, v)] }

/-- The writer's drain loop: emit buffered tiles while the next expected
sequence index is present in the reorder buffer. -/
def drain {α : Type} (st : WriterState α) : WriterState α :=
  drainAux st.buf.length st

/-- One iteration of the writer's receive loop
(src/src/processing.rs, lines 133-143): buffer the received
`(sequence index, payload)` and drain. -/
def writerStep {α : Type} (st : WriterState α) (msg : Nat × α) :
    WriterState α :=
  drain { st with buf := bufInsert st.buf msg.1 msg.2 }

/-- The writer's receive loop over a complete arrival sequence (one
interleaving of the concurrent transform stage delivers the transformed
tiles in some order; the channel yields them in that order). -/
def writerRun {α : Type} (msgs : List (Nat × α)) : WriterState α :=
  msgs.foldl writerStep { next := 0, buf := [], written := [] }

/-- Embeds `ExpressionValue` (src/src/filtering/expression_compiler.rs):
runtime values of compiled expressions; the `Float` variant carries the
decimal rendering, as in the source. The `Array` constructor is spelled
`ArrayV` and `String` is `StringV` (etc.) because the capitalized source
names collide with Lean builtins. -/
inductive ExpressionValue where
  | StringV (s : String)
  | Number (i : Int)
  | FloatV (f : String)
  | Boolean (b : Bool)
  | Null
  | ArrayV (elems : List ExpressionValue)
deriving Repr

mutual

/-- Structural equality of expression values (the derived `PartialEq` of the
source). -/
def ExpressionValue.beq : ExpressionValue → ExpressionValue → Bool
  | .StringV a, .StringV b => a = b
  | .Number a, .Number b => a = b
  | .FloatV a, .FloatV b => a = b
  | .Boolean a, .Boolean b => a = b
  | .Null, .Null => true
  | .ArrayV a, .ArrayV b => ExpressionValue.beqList a b
  | _, _ => false

/-- Pointwise structural equality of expression-value lists. -/
def ExpressionValue.beqList : List ExpressionValue → List ExpressionValue → Bool
  | [], [] => true
  | a :: as1, b :: bs1 => ExpressionValue.beq a b && ExpressionValue.beqList as1 bs1
  | _, _ => false

end

/-- Embeds `ExpressionValue::to_bool`
(src/src/filtering/expression_compiler.rs). -/
def ExpressionValue.to_bool : ExpressionValue → Bool
  | .Boolean b => b
  | .StringV s => !(s.isEmpty)
  | .Number n => n ≠ 0
  | .FloatV f => f ≠ ("0") ∧ f ≠ ("0.0")
  | .Null => false
  | .ArrayV arrv => !(arrv.isEmpty)

mutual

/-- Embeds the `Display` implementation of `ExpressionValue`
(src/src/filtering/expression_compiler.rs). -/
def ExpressionValue.render : ExpressionValue → String
  | .StringV s => s
  | .Number n => toString n
  | .FloatV s => s
  | .Boolean b => boolRender b
  | .Null => "null"
  | .ArrayV arrv => "[" ++ ExpressionValue.renderList arrv ++ "]"

/-- Comma-joined rendering of the elements of an array value. -/
def ExpressionValue.renderList : List ExpressionValue → String
  | [] => ""
  | [x] => ExpressionValue.render x
  | x :: rest => ExpressionValue.render x ++ ", " ++ ExpressionValue.renderList rest

end

/-- Rendering of a `serde_json::Value` (`Value::to_string`), needed by
`ExpressionValue::from_json_value` for the object fallback. String escaping
beyond quoting is not exercised by any claim. -/
def jsonRenderString (s : String) : String :=
  "\"" ++ s ++ "\""

mutual

/-- Compact JSON rendering of a `serde_json::Value`. -/
def Json.render : Json → String
  | .null => "null"
  | .bool b => boolRender b
  | .num n => n.render
  | .str s => jsonRenderString s
  | .arr elems => "[" ++ Json.renderSepList elems ++ "]"
  | .obj fields => "\x7b" ++ Json.renderFields fields ++ "\x7d"

/-- Comma-joined rendering of a JSON array body. -/
def Json.renderSepList : List Json → String
  | [] => ""
  | [x] => Json.render x
  | x :: rest => Json.render x ++ "," ++ Json.renderSepList rest

/-- Comma-joined rendering of a JSON object body. -/
def Json.renderFields : List (String × Json) → String
  | [] => ""
  | [(k, v)] => jsonRenderString k ++ ":" ++ Json.render v
  | (k, v) :: rest =>
    jsonRenderString k ++ ":" ++ Json.render v ++ "," ++ Json.renderFields rest

end

mutual

/-- Embeds `ExpressionValue::from_json_value`
(src/src/filtering/expression_compiler.rs): total conversion; objects fall
back to their JSON rendering as a string. -/
def ExpressionValue.from_json_value : Json → ExpressionValue
  | .str s => .StringV s
  | .num (.int i) => .Number i
  | .num (.float r) => .FloatV r
  | .bool b => .Boolean b
  | .null => .Null
  | .arr elems => .ArrayV (ExpressionValue.from_json_list elems)
  | .obj fields => .StringV (Json.render (.obj fields))

/-- Elementwise conversion of a JSON array. -/
def ExpressionValue.from_json_list : List Json → List ExpressionValue
  | [] => []
  | x :: rest =>
    ExpressionValue.from_json_value x :: ExpressionValue.from_json_list rest

end

/-- Embeds `CompiledExpression`
(src/src/filtering/expression_compiler.rs). The `In` set is carried as the
list of its elements; compiled regexes are carried as their pattern string
(the external regex engine is the `RegexModel` oracle). `None` and `Type`
are spelled `NoneOp` and `Type'` to avoid Lean builtins. -/
inductive CompiledExpression where
  | Equal (a b : CompiledExpression)
  | NotEqual (a b : CompiledExpression)
  | LessThan (a b : CompiledExpression)
  | GreaterThan (a b : CompiledExpression)
  | LessThanOrEqual (a b : CompiledExpression)
  | GreaterThanOrEqual (a b : CompiledExpression)
  | Any (children : List CompiledExpression)
  | All (children : List CompiledExpression)
  | NoneOp (children : List CompiledExpression)
  | Not (child : CompiledExpression)
  | In (child : CompiledExpression) (values : List ExpressionValue)
  | StartsWith (child : CompiledExpression) (pre : String)
  | EndsWith (child : CompiledExpression) (suffix : String)
  | RegexMatch (child : CompiledExpression) (pattern : String)
  | RegexCapture (child : CompiledExpression) (pattern : String) (group : Nat)
  | Boolean (child : CompiledExpression)
  | Literal (value : ExpressionValue)
  | Tag (name : String)
  | Key
  | Type'
deriving Repr

mutual

/-- Embeds `ExpressionCompiler::compile`
(src/src/filtering/expression_compiler.rs): resolves the operator tag and
dispatches, promotes scalars to literals, rejects bare objects. -/
def ExpressionCompiler.compile (rx : RegexModel) :
    Json → Except String CompiledExpression
  | Json.arr arrv =>
    match arrv with
    | [] => .error ("Expression array cannot be empty")
    | op :: args =>
      match op.asStr with
      | none => .error ("First element must be operator string")
      | some op_str =>
        match Operator.from_str op_str with
        | .error e => .error e
        | .ok operator => ExpressionCompiler.compile_operator rx operator args
  | Json.str s => .ok (.Literal (.StringV s))
  | Json.num (.int i) => .ok (.Literal (.Number i))
  | Json.num (.float r) => .ok (.Literal (.FloatV r))
  | Json.bool b => .ok (.Literal (.Boolean b))
  | Json.null => .ok (.Literal .Null)
  | Json.obj _ => .error ("Object expressions are not supported")

/-- Embeds `ExpressionCompiler::compile_operator`
(src/src/filtering/expression_compiler.rs). Fixed-arity operators match
their exact argument count (the source's `ensure_arg_count`);
`regex-capture` requires at least three arguments
(`ensure_min_arg_count`). -/
def ExpressionCompiler.compile_operator (rx : RegexModel) :
    Operator → List Json → Except String CompiledExpression
  | Operator.Equal, args =>
    match args with
    | [a, b] => do
      pure (.Equal (← ExpressionCompiler.compile rx a)
        (← ExpressionCompiler.compile rx b))
    | _ => .error ("Expected 2 arguments, got " ++ toString args.length)
  | Operator.NotEqual, args =>
    match args with
    | [a, b] => do
      pure (.NotEqual (← ExpressionCompiler.compile rx a)
        (← ExpressionCompiler.compile rx b))
    | _ => .error ("Expected 2 arguments, got " ++ toString args.length)
  | Operator.LessThan, args =>
    match args with
    | [a, b] => do
      pure (.LessThan (← ExpressionCompiler.compile rx a)
        (← ExpressionCompiler.compile rx b))
    | _ => .error ("Expected 2 arguments, got " ++ toString args.length)
  | Operator.GreaterThan, args =>
    match args with
    | [a, b] => do
      pure (.GreaterThan (← ExpressionCompiler.compile rx a)
        (← ExpressionCompiler.compile rx b))
    | _ => .error ("Expected 2 arguments, got " ++ toString args.length)
  | Operator.LessThanOrEqual, args =>
    match args with
    | [a, b] => do
      pure (.LessThanOrEqual (← ExpressionCompiler.compile rx a)
        (← ExpressionCompiler.compile rx b))
    | _ => .error ("Expected 2 arguments, got " ++ toString args.length)
  | Operator.GreaterThanOrEqual, args =>
    match args with
    | [a, b] => do
      pure (.GreaterThanOrEqual (← ExpressionCompiler.compile rx a)
        (← ExpressionCompiler.compile rx b))
    | _ => .error ("Expected 2 arguments, got " ++ toString args.length)
  | Operator.Any, args => do
    pure (.Any (← ExpressionCompiler.compileList rx args))
  | Operator.All, args => do
    pure (.All (← ExpressionCompiler.compileList rx args))
  | Operator.None, args => do
    pure (.NoneOp (← ExpressionCompiler.compileList rx args))
  | Operator.Not, args =>
    match args with
    | [a] => do pure (.Not (← ExpressionCompiler.compile rx a))
    | _ => .error ("Expected 1 arguments, got " ++ toString args.length)
  | Operator.In, args =>
    match args with
    | [a, b] => do
      let expr ← ExpressionCompiler.compile rx a
      let values ← ExpressionCompiler.compile rx b
      match values with
      | .Literal (.ArrayV arrv) => pure (.In expr arrv)
      | _ => .error ("In operator requires an array of values")
    | _ => .error ("Expected 2 arguments, got " ++ toString args.length)
  | Operator.StartsWith, args =>
    match args with
    | [a, b] => do
      let expr ← ExpressionCompiler.compile rx a
      match b.asStr with
      | some pre => pure (.StartsWith expr pre)
      | none => .error ("StartsWith requires string argument")
    | _ => .error ("Expected 2 arguments, got " ++ toString args.length)
  | Operator.EndsWith, args =>
    match args with
    | [a, b] => do
      let expr ← ExpressionCompiler.compile rx a
      match b.asStr with
      | some suffix => pure (.EndsWith expr suffix)
      | none => .error ("EndsWith requires string argument")
    | _ => .error ("Expected 2 arguments, got " ++ toString args.length)
  | Operator.RegexMatch, args =>
    match args with
    | [a, b] => do
      let expr ← ExpressionCompiler.compile rx a
      match b.asStr with
      | some pattern =>
        if rx.valid pattern then pure (.RegexMatch expr pattern)
        else .error ("Invalid regex pattern: " ++ pattern)
      | none => .error ("RegexMatch requires string pattern")
    | _ => .error ("Expected 2 arguments, got " ++ toString args.length)
  | Operator.RegexCapture, args =>
    match args with
    | a :: b :: c :: _rest => do
      let expr ← ExpressionCompiler.compile rx a
      match b.asStr with
      | some pattern =>
        match c.asU64 with
        | some group =>
          if rx.valid pattern then pure (.RegexCapture expr pattern group)
          else .error ("Invalid regex pattern: " ++ pattern)
        | none => .error ("RegexCapture requires numeric group index")
      | none => .error ("RegexCapture requires string pattern")
    | _ => .error ("Expected at least 3 arguments, got " ++ toString args.length)
  | Operator.Boolean, args =>
    match args with
    | [a] => do pure (.Boolean (← ExpressionCompiler.compile rx a))
    | _ => .error ("Expected 1 arguments, got " ++ toString args.length)
  | Operator.Literal, args =>
    match args with
    | [a] => .ok (.Literal (ExpressionValue.from_json_value a))
    | _ => .error ("Expected 1 arguments, got " ++ toString args.length)
  | Operator.Tag, args =>
    match args with
    | [a] =>
      match a.asStr with
      | some tag_name => .ok (.Tag tag_name)
      | none => .error ("Tag operator requires string argument")
    | _ => .error ("Expected 1 arguments, got " ++ toString args.length)
  | Operator.Key, args =>
    match args with
    | [] => .ok .Key
    | _ => .error ("Expected 0 arguments, got " ++ toString args.length)
  | Operator.Type', args =>
    match args with
    | [] => .ok .Type'
    | _ => .error ("Expected 0 arguments, got " ++ toString args.length)

/-- Sequential compilation of an argument list (the
`args.iter().map(Self::compile).collect::<Result<Vec<_>>>()` of the
variadic logical operators). -/
def ExpressionCompiler.compileList (rx : RegexModel) :
    List Json → Except String (List CompiledExpression)
  | [] => .ok []
  | x :: rest => do
    let cx ← ExpressionCompiler.compile rx x
    let crest ← ExpressionCompiler.compileList rx rest
    pure (cx :: crest)

end

/-- Embeds `CompiledLayerFilter` (src/src/filtering/data.rs). -/
structure CompiledLayerFilter where
  feature : Option CompiledExpression
  tag : Option CompiledExpression

/-- Embeds `CompiledFilterFeature` (src/src/filtering/data.rs), parametric
in the planar geometry type. -/
structure CompiledFilterFeature (G : Type) where
  geometry : G
  layers : List (String × CompiledLayerFilter)

/-- Embeds `CompiledFilterFeature::should_remove_feature`
(src/src/filtering/data.rs, lines 267-288). The evaluator it calls
(`ExpressionExecutor::evaluate_bool`) does not exist under src/, so it is a
parameter here; a spec-modelled instance is supplied separately. The source
falls through to the wildcard entry whenever the layer-specific entry is
absent or lacks a `feature` expression. -/
def should_remove_feature {G : Type}
    (evaluate_bool : CompiledExpression → EvaluationContext → Except String Bool)
    (self : CompiledFilterFeature G) (context : EvaluationContext) :
    Except String Bool :=
  match (self.layers.lookup context.layer_name).bind (fun lf => lf.feature) with
  | some feature_expr => evaluate_bool feature_expr context
  | none =>
    match (self.layers.lookup ("*")).bind (fun lf => lf.feature) with
    | some feature_expr => evaluate_bool feature_expr context
    | none => .ok false

/-- Embeds `CompiledFilterFeature::should_remove_tag`
(src/src/filtering/data.rs, lines 291-308), structured exactly like
`should_remove_feature` but over the `tag` expressions. -/
def should_remove_tag {G : Type}
    (evaluate_bool : CompiledExpression → EvaluationContext → Except String Bool)
    (self : CompiledFilterFeature G) (context : EvaluationContext) :
    Except String Bool :=
  match (self.layers.lookup context.layer_name).bind (fun lf => lf.tag) with
  | some tag_expr => evaluate_bool tag_expr context
  | none =>
    match (self.layers.lookup ("*")).bind (fun lf => lf.tag) with
    | some tag_expr => evaluate_bool tag_expr context
    | none => .ok false

/-- Oracles for the floating-point and regex-capture behaviour referenced by
the spec: `fcmp` is the f64 comparison of two decimal renderings ("Number vs
Float compares as f64", "numeric comparison parses on demand"); `capture`
yields the captured group of a regex match, when present. -/
structure SpecOracles where
  fcmp : String → String → Ordering
  capture : String → Nat → String → Option String

/-- Modelled from the spec: the total order on expression values of §4.3
("Ordering is total ... via per-variant cmp. Null is strictly less than any
non-null. Number vs Float compares as f64. Cross-kind comparisons outside
these cases fall back to string rendering of both sides."). -/
def evCmp (fcmp : String → String → Ordering) :
    ExpressionValue → ExpressionValue → Ordering
  | .Null, .Null => .eq
  | .Null, _ => .lt
  | _, .Null => .gt
  | .Boolean a, .Boolean b => compare a b
  | .Number a, .Number b => compare a b
  | .FloatV a, .FloatV b => fcmp a b
  | .Number a, .FloatV b => fcmp (toString a) b
  | .FloatV a, .Number b => fcmp a (toString b)
  | .StringV a, .StringV b => compare a b
  | a, b => compare a.render b.render

mutual

/-- Modelled from the spec: `ExpressionExecutor::evaluate` — the evaluator of
compiled expressions that src/src/filtering/data.rs calls but that is absent
from src/. It follows §4.3 of the spec: comparisons via `evCmp`, logical
operators with short-circuit over boolean-coerced children, membership via
expression-value equality, string operators on the rendering of the child,
context terminals from the (string-typed) `EvaluationContext` that the
caller in data.rs passes, with Null for a missing property or key. -/
def ExpressionExecutor.evaluate (rx : RegexModel) (oc : SpecOracles)
    (context : EvaluationContext) :
    CompiledExpression → Except String ExpressionValue
  | .Equal a b => do
    pure (.Boolean (evCmp oc.fcmp (← ExpressionExecutor.evaluate rx oc context a)
      (← ExpressionExecutor.evaluate rx oc context b) = Ordering.eq))
  | .NotEqual a b => do
    pure (.Boolean (evCmp oc.fcmp (← ExpressionExecutor.evaluate rx oc context a)
      (← ExpressionExecutor.evaluate rx oc context b) ≠ Ordering.eq))
  | .LessThan a b => do
    pure (.Boolean (evCmp oc.fcmp (← ExpressionExecutor.evaluate rx oc context a)
      (← ExpressionExecutor.evaluate rx oc context b) = Ordering.lt))
  | .GreaterThan a b => do
    pure (.Boolean (evCmp oc.fcmp (← ExpressionExecutor.evaluate rx oc context a)
      (← ExpressionExecutor.evaluate rx oc context b) = Ordering.gt))
  | .LessThanOrEqual a b => do
    pure (.Boolean (evCmp oc.fcmp (← ExpressionExecutor.evaluate rx oc context a)
      (← ExpressionExecutor.evaluate rx oc context b) ≠ Ordering.gt))
  | .GreaterThanOrEqual a b => do
    pure (.Boolean (evCmp oc.fcmp (← ExpressionExecutor.evaluate rx oc context a)
      (← ExpressionExecutor.evaluate rx oc context b) ≠ Ordering.lt))
  | .Any children => ExpressionExecutor.evalAny rx oc context children
  | .All children => ExpressionExecutor.evalAll rx oc context children
  | .NoneOp children => ExpressionExecutor.evalNone rx oc context children
  | .Not child => do
    pure (.Boolean (!(← ExpressionExecutor.evaluate rx oc context child).to_bool))
  | .In child values => do
    let v ← ExpressionExecutor.evaluate rx oc context child
    pure (.Boolean (values.any (fun w => ExpressionValue.beq w v)))
  | .StartsWith child pre => do
    let v ← ExpressionExecutor.evaluate rx oc context child
    pure (.Boolean (v.render.startsWith pre))
  | .EndsWith child suffix => do
    let v ← ExpressionExecutor.evaluate rx oc context child
    pure (.Boolean (v.render.endsWith suffix))
  | .RegexMatch child pattern => do
    let v ← ExpressionExecutor.evaluate rx oc context child
    pure (.Boolean (rx.is_match pattern v.render))
  | .RegexCapture child pattern group => do
    let v ← ExpressionExecutor.evaluate rx oc context child
    match oc.capture pattern group v.render with
    | some s => pure (.StringV s)
    | none => pure .Null
  | .Boolean child => do
    pure (.Boolean (← ExpressionExecutor.evaluate rx oc context child).to_bool)
  | .Literal value => pure value
  | .Tag name =>
    match context.tags.lookup name with
    | some v => pure (.StringV v)
    | none => pure .Null
  | .Key =>
    match context.current_key with
    | some k => pure (.StringV k)
    | none => pure .Null
  | .Type' => pure (.StringV context.geometry_type)

/-- Modelled from the spec: `any` short-circuits on the first true child. -/
def ExpressionExecutor.evalAny (rx : RegexModel) (oc : SpecOracles)
    (context : EvaluationContext) :
    List CompiledExpression → Except String ExpressionValue
  | [] => pure (.Boolean false)
  | x :: xs => do
    if (← ExpressionExecutor.evaluate rx oc context x).to_bool then
      pure (.Boolean true)
    else ExpressionExecutor.evalAny rx oc context xs

/-- Modelled from the spec: `all` short-circuits on the first false child. -/
def ExpressionExecutor.evalAll (rx : RegexModel) (oc : SpecOracles)
    (context : EvaluationContext) :
    List CompiledExpression → Except String ExpressionValue
  | [] => pure (.Boolean true)
  | x :: xs => do
    if (← ExpressionExecutor.evaluate rx oc context x).to_bool then
      ExpressionExecutor.evalAll rx oc context xs
    else pure (.Boolean false)

/-- Modelled from the spec: `none` is true iff every child is false. -/
def ExpressionExecutor.evalNone (rx : RegexModel) (oc : SpecOracles)
    (context : EvaluationContext) :
    List CompiledExpression → Except String ExpressionValue
  | [] => pure (.Boolean true)
  | x :: xs => do
    if (← ExpressionExecutor.evaluate rx oc context x).to_bool then
      pure (.Boolean false)
    else ExpressionExecutor.evalNone rx oc context xs

end

/-- Modelled from the spec: `ExpressionExecutor::evaluate_bool` — evaluate
and coerce via the Boolean cast rules (`ExpressionValue::to_bool`). -/
def ExpressionExecutor.evaluate_bool (rx : RegexModel) (oc : SpecOracles)
    (expr : CompiledExpression) (context : EvaluationContext) :
    Except String Bool := do
  pure (← ExpressionExecutor.evaluate rx oc context expr).to_bool

/-- True iff an `Except`-wrapped boolean is `ok true`. -/
def isOkTrue : Except String Bool → Bool
  | .ok true => true
  | _ => false

/-- Statement of claim C1, per region: the region geometrically intersects
the feature (under the geometry oracle, exactly as the code tests it) and
its resolved (layer-specific, else wildcard) `feature` predicate evaluates
to true. -/
def regionRemovesFeature {GJ G : Type} (gm : GeoModel GJ G) (rx : RegexModel)
    (ff : FilterFeature GJ) (layer_name : String)
    (context : EvaluationContext) (g : G) : Bool :=
  match gm.parse_geojson_geometry ff.geometry with
  | .ok fg =>
    gm.intersects g fg &&
      (match (ff.properties.layers.lookup layer_name).orElse
          (fun _ => ff.properties.layers.lookup ("*")) with
       | some lf =>
         match lf.feature with
         | some e => isOkTrue (evaluate_expression rx context e)
         | none => false
       | none => false)
  | .error _ => false

/-- Statement of claim C1 over the whole collection: some region removes the
feature. -/
def someRegionRemoves {GJ G : Type} (gm : GeoModel GJ G) (rx : RegexModel)
    (filters : FilterCollection GJ) (layer_name : String)
    (context : EvaluationContext) (g : G) : Bool :=
  filters.features.any (fun ff => regionRemovesFeature gm rx ff layer_name context g)

/-- The built-in tag predicate of `transform_tile`: a tag key survives iff it
is not a `name:<lang>` key with a language other than the empty string or
`ja`, and does not start with `pgf:name:`. -/
def tagKeyKept (key : String) : Bool :=
  !(match nameCapture key with
    | some lang => decide (lang ≠ ("") ∧ lang ≠ ("ja"))
    | none => false) && !(strStartsWith key ("pgf:name:"))

/-- Materialized tag pairs of a feature: each even chunk of the tag list
resolved through the layer dictionaries; unresolvable chunks yield
nothing. -/
def matPairs (keys : List String) (values : List MvtValue)
    (tags : List Nat) : List (String × MvtValue) :=
  (chunksExact2 tags).filterMap (fun p =>
    match keys.get? p.1, values.get? p.2 with
    | some k, some v => some (k, v)
    | _, _ => none)

/-- Fixed arities of the operator table as enumerated by claim C9 and §4.1 of
the spec (`any`, `all`, `none` and `regex-capture` are variadic). -/
def claimFixedArity : Operator → Option Nat
  | .Equal => some 2
  | .NotEqual => some 2
  | .LessThan => some 2
  | .GreaterThan => some 2
  | .LessThanOrEqual => some 2
  | .GreaterThanOrEqual => some 2
  | .Not => some 1
  | .In => some 2
  | .StartsWith => some 2
  | .EndsWith => some 2
  | .RegexMatch => some 2
  | .Boolean => some 1
  | .Literal => some 1
  | .Tag => some 1
  | .Key => some 0
  | .Type' => some 0
  | _ => none

mutual

/-- Statement of claim C9 as written: the input is malformed per the claim's
enumerated contract — an empty array, a non-string first element, an unknown
operator tag, an arity mismatch for a fixed-arity operator, an invalid regex
pattern, a non-array second argument to `in`, or a bare JSON object —
applied recursively to the argument positions. -/
def claimMalformed (rx : RegexModel) : Json → Bool
  | .obj _ => true
  | .arr [] => true
  | .arr (op :: args) =>
    match op.asStr with
    | none => true
    | some s =>
      match Operator.from_str s with
      | .error _ => true
      | .ok oper =>
        (match claimFixedArity oper with
         | some n => args.length != n
         | none => false) ||
        (match oper with
         | .RegexMatch =>
           match args.get? 1 with
           | some p =>
             match p.asStr with
             | some pat => !(rx.valid pat)
             | none => false
           | none => false
         | .RegexCapture =>
           match args.get? 1 with
           | some p =>
             match p.asStr with
             | some pat => !(rx.valid pat)
             | none => false
           | none => false
         | _ => false) ||
        (match oper with
         | .In =>
           match args.get? 1 with
           | some (Json.arr _) => false
           | some _ => true
           | none => false
         | _ => false) ||
        claimMalformedList rx args
  | _ => false

/-- Recursive extension of `claimMalformed` over argument lists. -/
def claimMalformedList (rx : RegexModel) : List Json → Bool
  | [] => false
  | x :: rest => claimMalformed rx x || claimMalformedList rx rest

end

/-- Shape of a second `in` argument that compiles to `Literal(Array)`: the
two-element array `["literal", [...]]`. -/
def isLiteralArrayArg : Json → Bool
  | .arr [op, .arr _] =>
    match op.asStr with
    | some s =>
      match Operator.from_str s with
      | .ok .Literal => true
      | _ => false
    | none => false
  | _ => false

mutual

/-- Amended statement of claim C9: the exact well-formedness predicate of
`ExpressionCompiler::compile`. Beyond the claim's enumerated list it also
requires, at each recursive position: a string second argument for
`starts-with`/`ends-with`, a string pattern and a non-negative integral
group index for the regex operators, at least three arguments for
`regex-capture`, a string argument for `tag`, and a second `in` argument of
the shape `["literal", [...]]`. -/
def wellFormedExpr (rx : RegexModel) : Json → Bool
  | .obj _ => false
  | .arr [] => false
  | .arr (op :: args) =>
    match op.asStr with
    | none => false
    | some s =>
      match Operator.from_str s with
      | .error _ => false
      | .ok oper => wellFormedOperator rx oper args
  | _ => true

/-- Per-operator argument well-formedness, mirroring the compiler's
contract. -/
def wellFormedOperator (rx : RegexModel) : Operator → List Json → Bool
  | .Equal, [a, b] => wellFormedExpr rx a && wellFormedExpr rx b
  | .Equal, _ => false
  | .NotEqual, [a, b] => wellFormedExpr rx a && wellFormedExpr rx b
  | .NotEqual, _ => false
  | .LessThan, [a, b] => wellFormedExpr rx a && wellFormedExpr rx b
  | .LessThan, _ => false
  | .GreaterThan, [a, b] => wellFormedExpr rx a && wellFormedExpr rx b
  | .GreaterThan, _ => false
  | .LessThanOrEqual, [a, b] => wellFormedExpr rx a && wellFormedExpr rx b
  | .LessThanOrEqual, _ => false
  | .GreaterThanOrEqual, [a, b] => wellFormedExpr rx a && wellFormedExpr rx b
  | .GreaterThanOrEqual, _ => false
  | .Any, args => wellFormedList rx args
  | .All, args => wellFormedList rx args
  | .None, args => wellFormedList rx args
  | .Not, [a] => wellFormedExpr rx a
  | .Not, _ => false
  | .In, [a, b] => wellFormedExpr rx a && wellFormedExpr rx b && isLiteralArrayArg b
  | .In, _ => false
  | .StartsWith, [a, b] => wellFormedExpr rx a && b.asStr.isSome
  | .StartsWith, _ => false
  | .EndsWith, [a, b] => wellFormedExpr rx a && b.asStr.isSome
  | .EndsWith, _ => false
  | .RegexMatch, [a, b] =>
    wellFormedExpr rx a &&
      (match b.asStr with
       | some pat => rx.valid pat
       | none => false)
  | .RegexMatch, _ => false
  | .RegexCapture, a :: b :: c :: _ =>
    wellFormedExpr rx a &&
      (match b.asStr with
       | some pat => c.asU64.isSome && rx.valid pat
       | none => false)
  | .RegexCapture, _ => false
  | .Boolean, [a] => wellFormedExpr rx a
  | .Boolean, _ => false
  | .Literal, [_] => true
  | .Literal, _ => false
  | .Tag, [a] => a.asStr.isSome
  | .Tag, _ => false
  | .Key, [] => true
  | .Key, _ => false
  | .Type', [] => true
  | .Type', _ => false

/-- Conjunction of `wellFormedExpr` over an argument list. -/
def wellFormedList (rx : RegexModel) : List Json → Bool
  | [] => true
  | x :: rest => wellFormedExpr rx x && wellFormedList rx rest

end

/-- Trivial regex oracle: every pattern valid, nothing matches. -/
def rxU : RegexModel :=
  { valid := fun _ => true, is_match := fun _ _ => false }

/-- Trivial spec oracles (unused along the evaluation paths of the concrete
theorems below). -/
def ocU : SpecOracles :=
  { fcmp := fun _ _ => Ordering.eq, capture := fun _ _ _ => none }

/-- Trivial geometry oracle over the unit geometry type: everything parses,
everything intersects, every geometry is a point. -/
def gmU : GeoModel Unit Unit :=
  { parse_geojson_geometry := fun _ => .ok ()
  , intersects := fun _ _ => true
  , kind := fun _ => .point
  , to_geo := fun _ => .ok ()
  , project_to_tile := fun g _ _ => g
  , bbox_intersects_tile := fun _ _ => true }

/-- Evaluation context with no tags. -/
def emptyCtx : EvaluationContext :=
  { layer_name := "layer", geometry_type := "Point", tags := []
  , current_key := none, current_value := none }

/-- Layer filter whose `feature` predicate is the constant false. -/
def lfFalse : LayerFilter := { feature := some (Json.bool false), tag := none }

/-- Layer filter whose `feature` predicate is the constant true. -/
def lfTrue : LayerFilter := { feature := some (Json.bool true), tag := none }

/-- First C1 region: wildcard entry with a false `feature` predicate. -/
def regionFirst : FilterFeature Unit :=
  { feature_type := "Feature", geometry := ()
  , properties := { id := none, description := none, layers := [(("*"), lfFalse)] } }

/-- Second C1 region: wildcard entry with a true `feature` predicate. -/
def regionSecond : FilterFeature Unit :=
  { feature_type := "Feature", geometry := ()
  , properties := { id := none, description := none, layers := [(("*"), lfTrue)] } }

/-- C1 filter collection: both regions intersect everything under `gmU`. -/
def fcC1 : FilterCollection Unit :=
  { feature_type := "FeatureCollection", features := [regionFirst, regionSecond] }

/-- A feature with no tags. -/
def featEmpty : Feature := { id := none, tags := [], ftype := none, geometry := [] }

/-- C5 compiled region: a layer-specific entry for `roads` with no `feature`
predicate, and a wildcard entry whose `feature` predicate is the literal
true. -/
def cffC5 : CompiledFilterFeature Unit :=
  { geometry := ()
  , layers :=
      [(("roads"), { feature := none, tag := none })
      , (("*"), { feature := some (.Literal (.Boolean true)), tag := none })] }

/-- Context of a feature in the `roads` layer. -/
def ctxC5 : EvaluationContext :=
  { layer_name := "roads", geometry_type := "Polygon", tags := []
  , current_key := none, current_value := none }

/-- Tile coordinates 0/0/0. -/
def coordsU : TileCoordinates := { z := 0, x := 0, y := 0 }

/-- C2 counterexample input tile: one layer, one feature whose only tag has
the key `name:en`. -/
def tileC2 : Tile :=
  { layers :=
      [{ version := 2, name := "pois"
       , features := [{ id := some 1, tags := [0, 0], ftype := some 1, geometry := [9, 0, 0] }]
       , keys := ["name:en"]
       , values := [MvtValue.StringValue ("Shrine")]
       , extent := some 4096 }] }

/-- Output of `transform_tile` on `tileC2` with no filter: the `name:en` tag
is dropped and the dictionaries are emptied. -/
def tileC2out : Tile :=
  { layers :=
      [{ version := 2, name := "pois"
       , features := [{ id := some 1, tags := [], ftype := some 1, geometry := [9, 0, 0] }]
       , keys := []
       , values := []
       , extent := some 4096 }] }

/-- Witness tile: one layer with one feature carrying a surviving tag
(`kind` = `primary`) and an unreferenced dictionary entry. -/
def tileW : Tile :=
  { layers :=
      [{ version := 2, name := "roads"
       , features := [{ id := some 7, tags := [0, 1], ftype := some 2, geometry := [17, 8, 8] }]
       , keys := ["kind"]
       , values := [MvtValue.StringValue ("unused"), MvtValue.StringValue ("primary")]
       , extent := none }] }

/-- C9 counterexample input: `["tag", 5]` — correct arity, known operator,
but a non-string `tag` argument. -/
def jsonTag5 : Json := Json.arr [Json.str "tag", Json.num (.int 5)]


/-- Output of both transform paths on `tileW` with no filter: the unused
dictionary entry is dropped and the tag indices renumbered. -/
def tileWout : Tile :=
  { layers :=
      [{ version := 2, name := "roads"
       , features := [{ id := some 7, tags := [0, 0], ftype := some 2, geometry := [17, 8, 8] }]
       , keys := ["kind"]
       , values := [MvtValue.StringValue ("primary")]
       , extent := none }] }

/-! Theorems. General helper lemmas first, then one theorem per claim (plus
counterexamples and witnesses where required). -/

theorem evaluate_operator_any (rx : RegexModel) (ctx : EvaluationContext)
    (operands : List Json) :
    evaluate_operator rx ctx Operator.Any operands = evalAnyList rx ctx operands := by
  simp [evaluate_operator]

theorem evaluate_operator_all (rx : RegexModel) (ctx : EvaluationContext)
    (operands : List Json) :
    evaluate_operator rx ctx Operator.All operands = evalAllList rx ctx operands := by
  simp [evaluate_operator]

theorem evaluate_operator_none (rx : RegexModel) (ctx : EvaluationContext)
    (operands : List Json) :
    evaluate_operator rx ctx Operator.None operands = evalNoneList rx ctx operands := by
  simp [evaluate_operator]

theorem evalAnyList_nil (rx : RegexModel) (ctx : EvaluationContext) :
    evalAnyList rx ctx [] = .ok false := by simp [evalAnyList]

theorem evalAllList_nil (rx : RegexModel) (ctx : EvaluationContext) :
    evalAllList rx ctx [] = .ok true := by simp [evalAllList]

theorem evalNoneList_nil (rx : RegexModel) (ctx : EvaluationContext) :
    evalNoneList rx ctx [] = .ok true := by simp [evalNoneList]

theorem evalAnyList_cons (rx : RegexModel) (ctx : EvaluationContext)
    (c : Json) (cs : List Json) (b : Bool)
    (h : evaluate_expression rx ctx c = .ok b) :
    evalAnyList rx ctx (c :: cs) =
      (if b then .ok true else evalAnyList rx ctx cs) := by
  cases b <;> simp [evalAnyList, h, bind, Except.bind, pure, Except.pure]

theorem evalAllList_cons (rx : RegexModel) (ctx : EvaluationContext)
    (c : Json) (cs : List Json) (b : Bool)
    (h : evaluate_expression rx ctx c = .ok b) :
    evalAllList rx ctx (c :: cs) =
      (if b then evalAllList rx ctx cs else .ok false) := by
  cases b <;> simp [evalAllList, h, bind, Except.bind, pure, Except.pure]

theorem evalNoneList_cons (rx : RegexModel) (ctx : EvaluationContext)
    (c : Json) (cs : List Json) (b : Bool)
    (h : evaluate_expression rx ctx c = .ok b) :
    evalNoneList rx ctx (c :: cs) =
      (if b then .ok false else evalNoneList rx ctx cs) := by
  cases b <;> simp [evalNoneList, h, bind, Except.bind, pure, Except.pure]

theorem evalNoneList_ok_true_iff (rx : RegexModel) (ctx : EvaluationContext)
    (cs : List Json) :
    evalNoneList rx ctx cs = .ok true ↔
      ∀ c ∈ cs, evaluate_expression rx ctx c = .ok false := by
  induction cs with
  | nil => simp [evalNoneList_nil]
  | cons x xs ih =>
    constructor
    · intro h
      have hx : ∃ b, evaluate_expression rx ctx x = .ok b := by
        cases hev : evaluate_expression rx ctx x with
        | ok b => exact ⟨b, rfl⟩
        | error e =>
          exfalso
          simp [evalNoneList, hev, bind, Except.bind] at h
      obtain ⟨b, hb⟩ := hx
      rw [evalNoneList_cons rx ctx x xs b hb] at h
      cases b with
      | true => simp at h
      | false =>
        intro c hc
        rcases List.mem_cons.mp hc with hceq | hcmem
        · rw [hceq]; exact hb
        · exact (ih.mp h) c hcmem
    · intro h
      have hb := h x (List.mem_cons_self x xs)
      rw [evalNoneList_cons rx ctx x xs false hb]
      simp only [Bool.false_eq_true, if_false]
      exact ih.mpr (fun c hc => h c (List.mem_cons_of_mem x hc))

/-- C6: the variadic logical operators of `evaluate_operator` behave as the
spec states on every argument list: `any` of no children is false and
otherwise short-circuits on the first true child (later children are not
evaluated); `all` of no children is true and short-circuits on the first
false child; `none` is true iff every child evaluates false. -/
theorem C6_logical_operators (rx : RegexModel) (ctx : EvaluationContext)
    (c : Json) (cs : List Json) :
    (evaluate_operator rx ctx Operator.Any [] = .ok false) ∧
    (evaluate_operator rx ctx Operator.All [] = .ok true) ∧
    (evaluate_operator rx ctx Operator.None [] = .ok true) ∧
    (evaluate_expression rx ctx c = .ok true →
      evaluate_operator rx ctx Operator.Any (c :: cs) = .ok true) ∧
    (evaluate_expression rx ctx c = .ok false →
      evaluate_operator rx ctx Operator.Any (c :: cs) =
        evaluate_operator rx ctx Operator.Any cs) ∧
    (evaluate_expression rx ctx c = .ok false →
      evaluate_operator rx ctx Operator.All (c :: cs) = .ok false) ∧
    (evaluate_expression rx ctx c = .ok true →
      evaluate_operator rx ctx Operator.All (c :: cs) =
        evaluate_operator rx ctx Operator.All cs) ∧
    (evaluate_operator rx ctx Operator.None cs = .ok true ↔
      ∀ x ∈ cs, evaluate_expression rx ctx x = .ok false) := by
  refine ⟨?_, ?_, ?_, ?_, ?_, ?_, ?_, ?_⟩
  · exact (evaluate_operator_any rx ctx []).trans (evalAnyList_nil rx ctx)
  · exact (evaluate_operator_all rx ctx []).trans (evalAllList_nil rx ctx)
  · exact (evaluate_operator_none rx ctx []).trans (evalNoneList_nil rx ctx)
  · intro h
    rw [evaluate_operator_any, evalAnyList_cons rx ctx c cs true h]; simp
  · intro h
    rw [evaluate_operator_any, evaluate_operator_any,
      evalAnyList_cons rx ctx c cs false h]; simp
  · intro h
    rw [evaluate_operator_all, evalAllList_cons rx ctx c cs false h]; simp
  · intro h
    rw [evaluate_operator_all, evaluate_operator_all,
      evalAllList_cons rx ctx c cs true h]; simp
  · rw [evaluate_operator_none]
    exact evalNoneList_ok_true_iff rx ctx cs

/-- C6 witness: the theorem applied at concrete inputs. -/
theorem C6_witness :
    (evaluate_operator rxU emptyCtx Operator.Any [] = .ok false) ∧
    (evaluate_operator rxU emptyCtx Operator.Any
      [Json.bool true, Json.str "junk"] = .ok true) ∧
    (evaluate_operator rxU emptyCtx Operator.All
      [Json.bool false, Json.str "junk"] = .ok false) ∧
    (∀ x ∈ [Json.bool false], evaluate_expression rxU emptyCtx x = .ok false) :=
  ⟨(C6_logical_operators rxU emptyCtx (Json.bool true) []).1,
   (C6_logical_operators rxU emptyCtx (Json.bool true) [Json.str "junk"]).2.2.2.1
     (by simp [evaluate_expression]),
   (C6_logical_operators rxU emptyCtx (Json.bool false) [Json.str "junk"]).2.2.2.2.2.1
     (by simp [evaluate_expression]),
   (C6_logical_operators rxU emptyCtx (Json.bool false) [Json.bool false]).2.2.2.2.2.2.2.mp
     (by simp [evaluate_operator, evalNoneList, evaluate_expression, bind, Except.bind])⟩

/-- C7 (code-bug evidence): the comparison operators are accepted by
`Operator::from_str` but `evaluate_operator` has no implementation for them —
evaluating `["<", 1, 2]` (and likewise `<=`, `>`, `>=`) returns the source's
catch-all "not yet implemented" error instead of comparing under a total
order on expression values. -/
theorem C7_comparison_not_implemented :
    (evaluate_expression rxU emptyCtx
      (Json.arr [Json.str "<", Json.num (.int 1), Json.num (.int 2)]) =
      .error ("Operator LessThan not yet implemented")) ∧
    (evaluate_expression rxU emptyCtx
      (Json.arr [Json.str "<=", Json.num (.int 1), Json.num (.int 2)]) =
      .error ("Operator LessThanOrEqual not yet implemented")) ∧
    (evaluate_expression rxU emptyCtx
      (Json.arr [Json.str ">", Json.num (.int 1), Json.num (.int 2)]) =
      .error ("Operator GreaterThan not yet implemented")) ∧
    (evaluate_expression rxU emptyCtx
      (Json.arr [Json.str ">=", Json.num (.int 1), Json.num (.int 2)]) =
      .error ("Operator GreaterThanOrEqual not yet implemented")) := by
  refine ⟨?_, ?_, ?_, ?_⟩ <;>
    simp [evaluate_expression, Json.asStr, Operator.from_str,
      evaluate_operator, Operator.debugName]

/-- C8 counterexample: evaluating the `tag` context terminal for a key absent
from the property map yields `Ok("")` — the empty string — not a Null value
distinct from the empty string. -/
theorem C8_counterexample :
    evaluate_operand (Json.arr [Json.str "tag", Json.str "kind"]) emptyCtx =
      .ok ("") := by
  simp [evaluate_operand, Json.asStr, emptyCtx, List.lookup]

/-- C8 amended: `tag` on a key absent from the feature's property map
returns `Ok` of the empty string (the `String::default` of
`unwrap_or_default`), never an error, for every evaluation context; the
executor has no Null value distinct from the empty string. -/
theorem C8_tag_missing_key (ctx : EvaluationContext) (key : String)
    (h : ctx.tags.lookup key = none) :
    evaluate_operand (Json.arr [Json.str "tag", Json.str key]) ctx =
      .ok ("") := by
  simp [evaluate_operand, Json.asStr, h]

/-- C8 witness: the amended theorem applied to the empty context. -/
theorem C8_witness :
    evaluate_operand (Json.arr [Json.str "tag", Json.str "kind"]) emptyCtx =
      .ok ("") :=
  C8_tag_missing_key emptyCtx ("kind") (by simp [emptyCtx, List.lookup])

/-- C5 counterexample: a region carrying a `roads` entry with no `feature`
predicate and a wildcard entry whose predicate is the literal true. The
claim says the wildcard is consulted only when no layer-specific entry
exists, so the feature should be kept; `should_remove_feature`
(evaluated with the spec-modelled expression executor) nevertheless falls
through to the wildcard and removes it. -/
theorem C5_counterexample :
    should_remove_feature (ExpressionExecutor.evaluate_bool rxU ocU) cffC5 ctxC5 =
      .ok true ∧
    (cffC5.layers.lookup ctxC5.layer_name).isSome = true ∧
    ((cffC5.layers.lookup ctxC5.layer_name).bind (fun lf => lf.feature)) = none := by
  refine ⟨?_, by simp [cffC5, ctxC5, List.lookup], by simp [cffC5, ctxC5, List.lookup]⟩
  simp [should_remove_feature, cffC5, ctxC5, List.lookup,
    ExpressionExecutor.evaluate_bool, ExpressionExecutor.evaluate,
    ExpressionValue.to_bool, bind, Except.bind, pure, Except.pure]

/-- C5 amended: in `should_remove_feature` a layer-specific entry decides
only when it carries a `feature` predicate; when the layer entry exists but
lacks one, the wildcard entry is consulted after all (and when neither
carries one, the feature is kept). In `find_layer_filter`, by contrast, a
layer-specific entry short-circuits by mere presence. -/
theorem C5_resolution_order (G : Type)
    (evb : CompiledExpression → EvaluationContext → Except String Bool)
    (cff : CompiledFilterFeature G) (ctx : EvaluationContext) :
    (∀ e, (cff.layers.lookup ctx.layer_name).bind (fun lf => lf.feature) = some e →
      should_remove_feature evb cff ctx = evb e ctx) ∧
    (∀ e, (cff.layers.lookup ctx.layer_name).bind (fun lf => lf.feature) = none →
      (cff.layers.lookup ("*")).bind (fun lf => lf.feature) = some e →
      should_remove_feature evb cff ctx = evb e ctx) ∧
    ((cff.layers.lookup ctx.layer_name).bind (fun lf => lf.feature) = none →
      (cff.layers.lookup ("*")).bind (fun lf => lf.feature) = none →
      should_remove_feature evb cff ctx = .ok false) ∧
    (∀ (GJ : Type) (gm : GeoModel GJ G) (ft : String) (ff : FilterFeature GJ)
        (rest : List (FilterFeature GJ)) (g : G) (fg : G) (lf : LayerFilter),
      gm.parse_geojson_geometry ff.geometry = .ok fg →
      gm.intersects g fg = true →
      ff.properties.layers.lookup ctx.layer_name = some lf →
      find_layer_filter gm ⟨ft, ff :: rest⟩ ctx.layer_name g = .ok (some lf)) := by
  refine ⟨?_, ?_, ?_, ?_⟩
  · intro e he
    simp [should_remove_feature, he]
  · intro e he hw
    simp [should_remove_feature, he, hw]
  · intro he hw
    simp [should_remove_feature, he, hw]
  · intro GJ gm ft ff rest g fg lf hparse hint hlook
    simp [find_layer_filter, find_layer_filter_go, hparse, hint, hlook,
      bind, Except.bind, pure, Except.pure]

/-- C5 witness: the amended theorem applied to the concrete region of the
counterexample — the layer entry has no predicate and the wildcard entry
decides. -/
theorem C5_witness :
    should_remove_feature (ExpressionExecutor.evaluate_bool rxU ocU) cffC5 ctxC5 =
      ExpressionExecutor.evaluate_bool rxU ocU
        (.Literal (.Boolean true)) ctxC5 :=
  (C5_resolution_order Unit (ExpressionExecutor.evaluate_bool rxU ocU) cffC5 ctxC5).2.1
    (.Literal (.Boolean true))
    (by simp [cffC5, ctxC5, List.lookup])
    (by simp [cffC5, ctxC5, List.lookup])

/-- C1 counterexample: two regions both geometrically intersect the feature;
the first carries a wildcard `feature` predicate evaluating false, the
second one evaluating true. The claim demands removal — some intersecting
region's resolved predicate is true — but `apply_feature_filters` consults
only the first region with an applicable entry and keeps the feature. -/
theorem C1_counterexample :
    apply_feature_filters gmU rxU fcC1 featEmpty () ("layer") [] [] =
      .ok (true, []) ∧
    someRegionRemoves gmU rxU fcC1 ("layer") emptyCtx () = true := by
  constructor
  · simp [apply_feature_filters, extract_feature_tags, extract_pairs,
      chunksExact2, featEmpty, geometry_type_name, gmU, find_layer_filter,
      find_layer_filter_go, fcC1, regionFirst, regionSecond, lfFalse, lfTrue,
      List.lookup, evaluate_expression, bind, Except.bind, pure, Except.pure]
  · simp [someRegionRemoves, fcC1, regionRemovesFeature, gmU, regionFirst,
      regionSecond, lfFalse, lfTrue, List.lookup, isOkTrue, emptyCtx,
      evaluate_expression]

/-- C1 amended: a feature is retained iff the first geometrically
intersecting region that carries an applicable (layer-specific, else
wildcard) `LayerFilter` — the region `find_layer_filter` returns — either
does not exist, lacks a `feature` predicate, or has one evaluating false;
intersecting regions after the first applicable one are never consulted. -/
theorem C1_first_applicable_region_decides {GJ G : Type} (gm : GeoModel GJ G)
    (rx : RegexModel) (filters : FilterCollection GJ) (feature : Feature)
    (g : G) (layer_name : String) (keys : List String)
    (values : List MvtValue) (gt : String) (keep : Bool) (out_tags : List Nat)
    (hgt : geometry_type_name (gm.kind g) = .ok gt)
    (h : apply_feature_filters gm rx filters feature g layer_name keys values =
      .ok (keep, out_tags)) :
    keep = false ↔ ∃ lf e,
      find_layer_filter gm filters layer_name g = .ok (some lf) ∧
      lf.feature = some e ∧
      evaluate_expression rx
        { layer_name := layer_name, geometry_type := gt
        , tags := extract_pairs keys values (chunksExact2 feature.tags) []
        , current_key := none, current_value := none } e = .ok true := by
  simp only [apply_feature_filters, extract_feature_tags, hgt, bind,
    Except.bind, pure, Except.pure] at h
  cases hflf : find_layer_filter gm filters layer_name g with
  | error e => rw [hflf] at h; exact absurd h (by simp)
  | ok olf =>
    rw [hflf] at h
    cases olf with
    | none =>
      dsimp only at h
      simp only [Bool.not_true, Bool.false_eq_true, if_false,
        Except.ok.injEq, Prod.mk.injEq] at h
      constructor
      · intro hk; rw [← h.1] at hk; exact absurd hk (by simp)
      · rintro ⟨lf, e, hsome, -, -⟩
        exact absurd hsome (by simp)
    | some lf =>
      dsimp only at h
      cases hfe : lf.feature with
      | none =>
        rw [hfe] at h
        dsimp only at h
        simp only [Bool.not_true, Bool.false_eq_true, if_false] at h
        have hkeep : keep = true := by
          cases htag : lf.tag with
          | none => rw [htag] at h; simp at h; exact h.1
          | some te =>
            rw [htag] at h
            dsimp only at h
            cases hft : filter_tags rx feature keys values te
                { layer_name := layer_name, geometry_type := gt
                , tags := extract_pairs keys values (chunksExact2 feature.tags) []
                , current_key := none, current_value := none } with
            | error er => rw [hft] at h; simp at h
            | ok ft => rw [hft] at h; simp at h; exact h.1
        constructor
        · intro hk; rw [hkeep] at hk; exact absurd hk (by simp)
        · rintro ⟨lf2, e2, hsome, hfe2, -⟩
          have hlf : lf = lf2 := Option.some.inj (Except.ok.inj hsome)
          rw [← hlf, hfe] at hfe2
          exact absurd hfe2 (by simp)
      | some fe =>
        rw [hfe] at h
        dsimp only at h
        cases hev : evaluate_expression rx
            { layer_name := layer_name, geometry_type := gt
            , tags := extract_pairs keys values (chunksExact2 feature.tags) []
            , current_key := none, current_value := none } fe with
        | error er => rw [hev] at h; exact absurd h (by simp)
        | ok b =>
          rw [hev] at h
          dsimp only at h
          cases b with
          | true =>
            simp at h
            constructor
            · intro _; exact ⟨lf, fe, rfl, hfe, hev⟩
            · intro _; exact h.1
          | false =>
            simp only [Bool.not_false, Bool.not_true, Bool.false_eq_true,
              if_false] at h
            have hkeep : keep = true := by
              cases htag : lf.tag with
              | none => rw [htag] at h; simp at h; exact h.1
              | some te =>
                rw [htag] at h
                dsimp only at h
                cases hft : filter_tags rx feature keys values te
                    { layer_name := layer_name, geometry_type := gt
                    , tags := extract_pairs keys values (chunksExact2 feature.tags) []
                    , current_key := none, current_value := none } with
                | error er => rw [hft] at h; simp at h
                | ok ft => rw [hft] at h; simp at h; exact h.1
            constructor
            · intro hk; rw [hkeep] at hk; exact absurd hk (by simp)
            · rintro ⟨lf2, e2, hsome, hfe2, hev2⟩
              have hlf : lf = lf2 := Option.some.inj (Except.ok.inj hsome)
              rw [← hlf, hfe] at hfe2
              have he2 : fe = e2 := Option.some.inj hfe2
              rw [← he2, hev] at hev2
              exact absurd (Except.ok.inj hev2) (by simp)

/-- C1 witness: the amended theorem applied to the concrete two-region
collection of the counterexample. -/
theorem C1_witness :
    true = false ↔ ∃ lf e,
      find_layer_filter gmU fcC1 ("layer") () = .ok (some lf) ∧
      lf.feature = some e ∧
      evaluate_expression rxU
        { layer_name := ("layer"), geometry_type := ("Point")
        , tags := extract_pairs [] [] (chunksExact2 featEmpty.tags) []
        , current_key := none, current_value := none } e = .ok true :=
  C1_first_applicable_region_decides gmU rxU fcC1 featEmpty () ("layer") [] []
    ("Point") true []
    (by simp [gmU, geometry_type_name])
    (by simp [apply_feature_filters, extract_feature_tags, extract_pairs,
      chunksExact2, featEmpty, geometry_type_name, gmU, find_layer_filter,
      find_layer_filter_go, fcC1, regionFirst, regionSecond, lfFalse, lfTrue,
      List.lookup, evaluate_expression, bind, Except.bind, pure, Except.pure])

theorem removeKey_none {α : Type} (l : List (Nat × α)) (k : Nat)
    (h : removeKey l k = none) : k ∉ l.map Prod.fst := by
  induction l with
  | nil => simp
  | cons p rest ih =>
    obtain ⟨k0, v0⟩ := p
    by_cases hk : k0 = k
    · simp [removeKey, hk] at h
    · simp only [removeKey, if_neg hk] at h
      cases hrk : removeKey rest k with
      | some pr => rw [hrk] at h; obtain ⟨v2, rest2⟩ := pr; simp at h
      | none =>
        have := ih hrk
        simp only [List.map_cons, List.mem_cons]
        rintro (heq | hmem)
        · exact hk heq.symm
        · exact this hmem

theorem removeKey_some {α : Type} (l : List (Nat × α)) (k : Nat) (v : α)
    (rest : List (Nat × α)) (h : removeKey l k = some (v, rest)) :
    (l.map Prod.fst).Perm (k :: rest.map Prod.fst) ∧
      rest.length + 1 = l.length := by
  induction l generalizing v rest with
  | nil => simp [removeKey] at h
  | cons p tail ih =>
    obtain ⟨k0, v0⟩ := p
    by_cases hk : k0 = k
    · simp only [removeKey, if_pos hk, Option.some.injEq, Prod.mk.injEq] at h
      obtain ⟨hv, hrest⟩ := h
      subst hk
      rw [← hrest]
      exact ⟨by simp, by simp⟩
    · simp only [removeKey, if_neg hk] at h
      cases hrk : removeKey tail k with
      | none => rw [hrk] at h; simp at h
      | some pr =>
        obtain ⟨v2, rest2⟩ := pr
        rw [hrk] at h
        simp only [Option.some.injEq, Prod.mk.injEq] at h
        obtain ⟨hv, hrest⟩ := h
        subst hv
        obtain ⟨hperm, hlen⟩ := ih _ rest2 hrk
        subst hrest
        constructor
        · simp only [List.map_cons]
          have h1 : (k0 :: tail.map Prod.fst).Perm
              (k0 :: k :: rest2.map Prod.fst) := hperm.cons k0
          have h2 : (k0 :: k :: rest2.map Prod.fst).Perm
              (k :: k0 :: rest2.map Prod.fst) :=
            (List.Perm.swap k0 k (rest2.map Prod.fst)).symm
          exact h1.trans h2
        · simp [← hlen]

theorem drainAux_spec {α : Type} (fuel : Nat) :
    ∀ (st : WriterState α), st.buf.length ≤ fuel →
    st.written.map Prod.fst = List.range st.next →
    ((drainAux fuel st).written.map Prod.fst =
      List.range (drainAux fuel st).next) ∧
    ((drainAux fuel st).buf.map Prod.fst ++
      (drainAux fuel st).written.map Prod.fst).Perm
      (st.buf.map Prod.fst ++ st.written.map Prod.fst) ∧
    (drainAux fuel st).next ∉ (drainAux fuel st).buf.map Prod.fst := by
  induction fuel with
  | zero =>
    intro st hlen hw
    have hbuf : st.buf = [] := List.length_eq_zero.mp (Nat.le_zero.mp hlen)
    simp [drainAux, hw, hbuf]
  | succ fuel ih =>
    intro st hlen hw
    cases hrk : removeKey st.buf st.next with
    | none =>
      simp only [drainAux, hrk]
      exact ⟨hw, List.Perm.refl _, removeKey_none st.buf st.next hrk⟩
    | some pr =>
      obtain ⟨v, buf2⟩ := pr
      obtain ⟨hperm, hlen2⟩ := removeKey_some st.buf st.next v buf2 hrk
      have hst2w : (st.written ++ [(st.next, v)]).map Prod.fst =
          List.range (st.next + 1) := by
        simp [hw, List.range_succ]
      have hlen3 : buf2.length ≤ fuel := by omega
      obtain ⟨ih1, ih2, ih3⟩ := ih
        { next := st.next + 1, buf := buf2
        , written := st.written ++ [(st.next, v)] } hlen3 hst2w
      have heq : drainAux (fuel + 1) st = drainAux fuel
          { next := st.next + 1, buf := buf2
          , written := st.written ++ [(st.next, v)] } := by
        simp [drainAux, hrk]
      rw [heq]
      refine ⟨ih1, ?_, ih3⟩
      refine ih2.trans ?_
      simp only [List.map_append, List.map_cons, List.map_nil]
      have s1 : (buf2.map Prod.fst ++ (st.written.map Prod.fst ++ [st.next])).Perm
          (buf2.map Prod.fst ++ ([st.next] ++ st.written.map Prod.fst)) :=
        List.Perm.append_left _ List.perm_append_comm
      have s2 : buf2.map Prod.fst ++ ([st.next] ++ st.written.map Prod.fst) =
          (buf2.map Prod.fst ++ [st.next]) ++ st.written.map Prod.fst := by
        simp
      have s3 : ((buf2.map Prod.fst ++ [st.next]) ++ st.written.map Prod.fst).Perm
          ((st.next :: buf2.map Prod.fst) ++ st.written.map Prod.fst) :=
        List.Perm.append_right _ (List.perm_append_singleton _ _)
      have s4 : ((st.next :: buf2.map Prod.fst) ++ st.written.map Prod.fst).Perm
          (st.buf.map Prod.fst ++ st.written.map Prod.fst) :=
        List.Perm.append_right _ hperm.symm
      exact ((s1.trans (s2 ▸ List.Perm.refl _)).trans s3).trans s4

/-- The writer invariant: the written indices are exactly `range next` (tiles
are appended in strictly ascending dense sequence order), the buffered and
written indices together are a permutation of everything received, and the
next expected index is not buffered. -/
theorem writerRun_invariant {α : Type} (msgs : List (Nat × α)) :
    ((writerRun msgs).written.map Prod.fst =
      List.range (writerRun msgs).next) ∧
    ((writerRun msgs).buf.map Prod.fst ++
      (writerRun msgs).written.map Prod.fst).Perm (msgs.map Prod.fst) ∧
    (writerRun msgs).next ∉ (writerRun msgs).buf.map Prod.fst := by
  suffices hgen : ∀ (st : WriterState α) (received : List Nat),
      st.written.map Prod.fst = List.range st.next →
      (st.buf.map Prod.fst ++ st.written.map Prod.fst).Perm received →
      st.next ∉ st.buf.map Prod.fst →
      ((msgs.foldl writerStep st).written.map Prod.fst =
        List.range (msgs.foldl writerStep st).next) ∧
      ((msgs.foldl writerStep st).buf.map Prod.fst ++
        (msgs.foldl writerStep st).written.map Prod.fst).Perm
        (received ++ msgs.map Prod.fst) ∧
      (msgs.foldl writerStep st).next ∉
        (msgs.foldl writerStep st).buf.map Prod.fst by
    obtain ⟨g1, g2, g3⟩ := hgen { next := 0, buf := [], written := [] } []
      (by simp) (by simp) (by simp)
    exact ⟨g1, by simpa using g2, g3⟩
  induction msgs with
  | nil =>
    intro st received h1 h2 h3
    simp only [List.foldl_nil, List.map_nil, List.append_nil]
    exact ⟨h1, h2, h3⟩
  | cons m rest ih =>
    intro st received h1 h2 h3
    obtain ⟨i, x⟩ := m
    have hpre : ({ st with buf := bufInsert st.buf i x } :
        WriterState α).written.map Prod.fst =
        List.range ({ st with buf := bufInsert st.buf i x } :
          WriterState α).next := h1
    obtain ⟨d1, d2, d3⟩ := drainAux_spec
      (({ st with buf := bufInsert st.buf i x } : WriterState α).buf.length)
      { st with buf := bufInsert st.buf i x } (Nat.le_refl _) hpre
    have hstep : writerStep st (i, x) =
        drainAux (({ st with buf := bufInsert st.buf i x } :
          WriterState α).buf.length)
          { st with buf := bufInsert st.buf i x } := by
      simp [writerStep, drain]
    have hperm2 : ((writerStep st (i, x)).buf.map Prod.fst ++
        (writerStep st (i, x)).written.map Prod.fst).Perm
        (received ++ [i]) := by
      rw [hstep]
      refine d2.trans ?_
      simp only [bufInsert, List.map_append, List.map_cons, List.map_nil]
      have s1 : ((st.buf.map Prod.fst ++ [i]) ++ st.written.map Prod.fst).Perm
          ((i :: st.buf.map Prod.fst) ++ st.written.map Prod.fst) :=
        List.Perm.append_right _ (List.perm_append_singleton _ _)
      have s2 : ((i :: st.buf.map Prod.fst) ++ st.written.map Prod.fst) =
          i :: (st.buf.map Prod.fst ++ st.written.map Prod.fst) := by simp
      have s3 : (i :: (st.buf.map Prod.fst ++ st.written.map Prod.fst)).Perm
          (i :: received) := h2.cons i
      have s4 : (i :: received).Perm (received ++ [i]) :=
        (List.perm_append_singleton _ _).symm
      exact ((s1.trans (s2 ▸ List.Perm.refl _)).trans s3).trans s4
    have hrec := ih (writerStep st (i, x)) (received ++ [i])
      (by rw [hstep]; exact d1) hperm2 (by rw [hstep]; exact d3)
    obtain ⟨r1, r2, r3⟩ := hrec
    refine ⟨r1, ?_, r3⟩
    simp only [List.foldl_cons, List.map_cons]
    refine r2.trans ?_
    have : received ++ [i] ++ rest.map Prod.fst =
        received ++ (i :: rest.map Prod.fst) := by simp
    rw [this]

/-- C3: the writer appends tiles in exactly the input enumeration order. For
every arrival order of the transformed tiles (every interleaving of the
concurrent transform stage), after any prefix of receptions the sequence of
`add_tile` calls is exactly `0, 1, 2, …` up to the writer's `next` counter —
so tile `i` is written only after all tiles `0..i-1` — and when the arrivals
are a permutation of `0..n-1`, the final call sequence is exactly
`0..n-1`. -/
theorem C3_writer_emits_in_order {α : Type} (msgs : List (Nat × α)) (n : Nat)
    (hperm : (msgs.map Prod.fst).Perm (List.range n)) :
    (∀ p, p <+: msgs →
      (writerRun p).written.map Prod.fst = List.range (writerRun p).next) ∧
    (writerRun msgs).written.map Prod.fst = List.range n := by
  constructor
  · intro p _
    exact (writerRun_invariant p).1
  · obtain ⟨h1, h2, h3⟩ := writerRun_invariant msgs
    have hperm2 : ((writerRun msgs).buf.map Prod.fst ++
        List.range (writerRun msgs).next).Perm (List.range n) := by
      rw [← h1]; exact h2.trans hperm
    have hnextn : (writerRun msgs).next = n := by
      by_contra hne
      rcases Nat.lt_or_ge (writerRun msgs).next n with hlt | hge
      · have hmem : (writerRun msgs).next ∈ List.range n :=
          List.mem_range.mpr hlt
        have := (hperm2.mem_iff).mpr hmem
        rcases List.mem_append.mp this with hbuf | hrange
        · exact h3 hbuf
        · exact absurd (List.mem_range.mp hrange) (by omega)
      · have hlen := hperm2.length_eq
        simp only [List.length_append, List.length_range] at hlen
        exact hne (by omega)
    rw [h1, hnextn]

/-- C3 witness: a three-tile run arriving out of order (2, 0, 1) is written
as 0, 1, 2. -/
theorem C3_witness :
    (writerRun [(2, 20), (0, 10), (1, 11)]).written.map Prod.fst =
      List.range 3 :=
  (C3_writer_emits_in_order [(2, 20), (0, 10), (1, 11)] 3 (by decide)).2

theorem chunksExact2_append_even (ts : List Nat) (x : Nat)
    (h : ts.length % 2 = 0) : chunksExact2 (ts ++ [x]) = chunksExact2 ts := by
  induction ts using chunksExact2.induct with
  | case1 a b rest ih =>
    simp only [List.cons_append, chunksExact2, List.append_eq]
    rw [ih (by simp at h; omega)]
  | case2 ts hshape =>
    match ts, hshape with
    | [], _ => simp [chunksExact2]
    | [a], _ => simp at h
    | a :: b :: rest, hshape => exact absurd (hshape a b rest rfl) (by simp)

/-- C10: tag materialization (`extract_feature_tags`) and the dynamic
dictionary rebuild (`transform_tags_dynamic`) are total over malformed tag
lists: `extract_feature_tags` never returns an error; a pair whose key or
value index is out of range of the layer dictionaries is silently dropped by
both loops; and a trailing odd element of the tag list belongs to no chunk,
so both consumers (which walk `chunksExact2` of the tag list) ignore it. -/
theorem C10_malformed_tags_total (feature : Feature) (layer_keys : List String)
    (layer_values : List MvtValue) (key_index value_index : Nat)
    (rest : List (Nat × Nat)) (acc : List (String × String))
    (keys : List String) (values : List MvtValue) (new_tags : List Nat)
    (ts : List Nat) (x : Nat)
    (hoob : ¬(key_index < layer_keys.length ∧ value_index < layer_values.length))
    (heven : ts.length % 2 = 0) :
    (∃ m, extract_feature_tags feature layer_keys layer_values = .ok m) ∧
    (extract_pairs layer_keys layer_values ((key_index, value_index) :: rest) acc =
      extract_pairs layer_keys layer_values rest acc) ∧
    (transform_tags_dynamic layer_keys layer_values
        ((key_index, value_index) :: rest) keys values new_tags =
      transform_tags_dynamic layer_keys layer_values rest keys values new_tags) ∧
    (chunksExact2 (ts ++ [x]) = chunksExact2 ts) := by
  refine ⟨⟨_, rfl⟩, ?_, ?_, chunksExact2_append_even ts x heven⟩
  · rw [extract_pairs, dif_neg hoob]
  · rw [transform_tags_dynamic, dif_neg hoob]

/-- C10 witness: the theorem applied at a concrete malformed tag list — the
pair `(5, 0)` is out of range of a one-entry key dictionary, and `[0, 1]`
has even length so a trailing `9` is ignored. -/
theorem C10_witness :
    (∃ m, extract_feature_tags featEmpty ["kind"] [MvtValue.BoolValue true] = .ok m) ∧
    (extract_pairs ["kind"] [MvtValue.BoolValue true] [(5, 0)] [] =
      extract_pairs ["kind"] [MvtValue.BoolValue true] [] []) ∧
    (transform_tags_dynamic ["kind"] [MvtValue.BoolValue true] [(5, 0)] [] [] [] =
      transform_tags_dynamic ["kind"] [MvtValue.BoolValue true] [] [] [] []) ∧
    (chunksExact2 ([0, 1] ++ [9]) = chunksExact2 [0, 1]) :=
  C10_malformed_tags_total featEmpty ["kind"] [MvtValue.BoolValue true] 5 0 [] []
    [] [] [] [0, 1] 9 (by decide) (by decide)

theorem position?_some {α : Type} [DecidableEq α] (xs : List α) (x : α)
    (i : Nat) (h : position? xs x = some i) :
    i < xs.length ∧ xs.get? i = some x := by
  induction xs generalizing i with
  | nil => simp [position?] at h
  | cons y ys ih =>
    by_cases hy : y = x
    · simp only [position?, if_pos hy] at h
      obtain rfl := Option.some.inj h
      simp [hy]
    · simp only [position?, if_neg hy] at h
      cases hp : position? ys x with
      | none => rw [hp] at h; simp at h
      | some j =>
        rw [hp] at h
        simp only [Option.map_some', Option.some.injEq] at h
        obtain ⟨hj, hget⟩ := ih j hp
        rw [← h]
        constructor
        · exact Nat.succ_lt_succ hj
        · simpa using hget

theorem internIdx_spec {α : Type} [DecidableEq α] (xs : List α) (x : α) :
    (xs <+: (internIdx xs x).1) ∧
    ((internIdx xs x).2 < (internIdx xs x).1.length) ∧
    ((internIdx xs x).1.get? (internIdx xs x).2 = some x) ∧
    ((internIdx xs x).1 = xs ∨
      ((internIdx xs x).1 = xs ++ [x] ∧ (internIdx xs x).2 = xs.length)) := by
  unfold internIdx
  cases hp : position? xs x with
  | some idx =>
    obtain ⟨hlt, hget⟩ := position?_some xs x idx hp
    exact ⟨List.prefix_refl _, hlt, hget, Or.inl rfl⟩
  | none =>
    refine ⟨⟨[x], rfl⟩, by simp, ?_, Or.inr ⟨rfl, rfl⟩⟩
    simp [List.get?_append_right, Nat.le_refl]

theorem get?_of_prefix_eq {α : Type} {l1 l2 : List α} (h : l1 <+: l2) (i : Nat)
    (hi : i < l1.length) : l2.get? i = l1.get? i := by
  obtain ⟨t, rfl⟩ := h
  exact List.get?_append hi

theorem chunksExact2_append_pair (nt : List Nat) (a b : Nat)
    (h : nt.length % 2 = 0) :
    chunksExact2 (nt ++ [a, b]) = chunksExact2 nt ++ [(a, b)] := by
  induction nt using chunksExact2.induct with
  | case1 c d rest ih =>
    simp only [List.cons_append, chunksExact2, List.append_eq]
    rw [ih (by simp at h; omega)]
  | case2 ts hshape =>
    match ts, hshape with
    | [], _ => simp [chunksExact2]
    | [c], _ => simp at h
    | c :: d :: rest, hshape => exact absurd (hshape c d rest rfl) (by simp)

theorem transform_tags_dynamic_spec (K : List String) (V : List MvtValue) :
    ∀ (pairs : List (Nat × Nat)) (keys kf : List String)
      (values vf : List MvtValue) (nt ntf : List Nat),
    transform_tags_dynamic K V pairs keys values nt = (kf, vf, ntf) →
    nt.length % 2 = 0 →
    (∀ p ∈ chunksExact2 nt, p.1 < keys.length ∧ p.2 < values.length) →
    (keys <+: kf) ∧ (values <+: vf) ∧ (ntf.length % 2 = 0) ∧
    (∀ p ∈ chunksExact2 ntf, p.1 < kf.length ∧ p.2 < vf.length) ∧
    (∀ p ∈ chunksExact2 nt, p ∈ chunksExact2 ntf) ∧
    (∀ j, keys.length ≤ j → j < kf.length → ∃ p ∈ chunksExact2 ntf, p.1 = j) ∧
    (∀ j, values.length ≤ j → j < vf.length → ∃ p ∈ chunksExact2 ntf, p.2 = j) := by
  intro pairs
  induction pairs with
  | nil =>
    intro keys kf values vf nt ntf heq heven hbound
    rw [transform_tags_dynamic] at heq
    obtain ⟨rfl, rfl, rfl⟩ := Prod.mk.injEq .. ▸ heq
    refine ⟨List.prefix_refl _, List.prefix_refl _, heven, hbound,
      fun p hp => hp, ?_, ?_⟩
    · intro j h1 h2; omega
    · intro j h1 h2; omega
  | cons pr rest ih =>
    intro keys kf values vf nt ntf heq heven hbound
    obtain ⟨a, b⟩ := pr
    rw [transform_tags_dynamic] at heq
    split at heq
    case isTrue hcond =>
      set key := K.get ⟨a, hcond.1⟩ with hkey
      set value := V.get ⟨b, hcond.2⟩ with hvalue
      obtain ⟨ikp, iki, ikg, ikc⟩ := internIdx_spec keys key
      obtain ⟨ivp, ivi, ivg, ivc⟩ := internIdx_spec values value
      have heven2 : (nt ++ [(internIdx keys key).2, (internIdx values value).2]).length % 2 = 0 := by
        simp; omega
      have hchunks2 : chunksExact2 (nt ++ [(internIdx keys key).2, (internIdx values value).2]) =
          chunksExact2 nt ++ [((internIdx keys key).2, (internIdx values value).2)] :=
        chunksExact2_append_pair nt _ _ heven
      have hbound2 : ∀ p ∈ chunksExact2
          (nt ++ [(internIdx keys key).2, (internIdx values value).2]),
          p.1 < (internIdx keys key).1.length ∧ p.2 < (internIdx values value).1.length := by
        intro p hp
        rw [hchunks2] at hp
        rcases List.mem_append.mp hp with hold | hnew
        · obtain ⟨b1, b2⟩ := hbound p hold
          exact ⟨Nat.lt_of_lt_of_le b1 ikp.length_le,
            Nat.lt_of_lt_of_le b2 ivp.length_le⟩
        · obtain rfl := List.mem_singleton.mp hnew
          exact ⟨iki, ivi⟩
      obtain ⟨pk, pv, ev, bd, mono, newk, newv⟩ :=
        ih (internIdx keys key).1 kf (internIdx values value).1 vf
          (nt ++ [(internIdx keys key).2, (internIdx values value).2]) ntf
          heq heven2 hbound2
      refine ⟨ikp.trans pk, ivp.trans pv, ev, bd, ?_, ?_, ?_⟩
      · intro p hp
        exact mono p (by rw [hchunks2]; exact List.mem_append_left _ hp)
      · intro j h1 h2
        by_cases hj : j < (internIdx keys key).1.length
        · rcases ikc with hsame | ⟨happ, hidx⟩
          · rw [hsame] at hj; omega
          · have hjl : j = keys.length := by
              rw [happ] at hj; simp at hj; omega
            refine ⟨((internIdx keys key).2, (internIdx values value).2),
              mono _ (by rw [hchunks2]; exact List.mem_append_right _ (by simp)), ?_⟩
            simp [hidx, hjl]
        · exact newk j (Nat.le_of_not_lt hj) h2
      · intro j h1 h2
        by_cases hj : j < (internIdx values value).1.length
        · rcases ivc with hsame | ⟨happ, hidx⟩
          · rw [hsame] at hj; omega
          · have hjl : j = values.length := by
              rw [happ] at hj; simp at hj; omega
            refine ⟨((internIdx keys key).2, (internIdx values value).2),
              mono _ (by rw [hchunks2]; exact List.mem_append_right _ (by simp)), ?_⟩
            simp [hidx, hjl]
        · exact newv j (Nat.le_of_not_lt hj) h2
    case isFalse hcond =>
      exact ih keys kf values vf nt ntf heq heven hbound

theorem matPairs_append_pair (kf : List String) (vf : List MvtValue)
    (nt : List Nat) (a b : Nat) (k : String) (v : MvtValue)
    (heven : nt.length % 2 = 0)
    (hk : kf.get? a = some k) (hv : vf.get? b = some v) :
    matPairs kf vf (nt ++ [a, b]) = matPairs kf vf nt ++ [(k, v)] := by
  rw [List.get?_eq_getElem?] at hk hv
  unfold matPairs
  rw [chunksExact2_append_pair nt a b heven, List.filterMap_append]
  simp [hk, hv]

theorem matPairs_stable (keys kf : List String) (values vf : List MvtValue)
    (nt : List Nat) (hpk : keys <+: kf) (hpv : values <+: vf)
    (hb : ∀ p ∈ chunksExact2 nt, p.1 < keys.length ∧ p.2 < values.length) :
    matPairs kf vf nt = matPairs keys values nt := by
  unfold matPairs
  apply List.filterMap_congr
  intro p hp
  obtain ⟨b1, b2⟩ := hb p hp
  rw [get?_of_prefix_eq hpk p.1 b1, get?_of_prefix_eq hpv p.2 b2]

theorem transform_tags_static_spec (K : List String) (V : List MvtValue) :
    ∀ (pairs : List (Nat × Nat)) (keys kf : List String)
      (values vf : List MvtValue) (nt ntf : List Nat),
    transform_tags_static K V pairs keys values nt = .ok (kf, vf, ntf) →
    nt.length % 2 = 0 →
    (∀ p ∈ chunksExact2 nt, p.1 < keys.length ∧ p.2 < values.length) →
    (keys <+: kf) ∧ (values <+: vf) ∧ (ntf.length % 2 = 0) ∧
    (∀ p ∈ chunksExact2 ntf, p.1 < kf.length ∧ p.2 < vf.length) ∧
    (∀ p ∈ chunksExact2 nt, p ∈ chunksExact2 ntf) ∧
    (∀ j, keys.length ≤ j → j < kf.length → ∃ p ∈ chunksExact2 ntf, p.1 = j) ∧
    (∀ j, values.length ≤ j → j < vf.length → ∃ p ∈ chunksExact2 ntf, p.2 = j) ∧
    (matPairs kf vf ntf = matPairs kf vf nt ++ pairs.filterMap (fun p =>
      match K.get? p.1, V.get? p.2 with
      | some k, some v => if tagKeyKept k then some (k, v) else none
      | _, _ => none)) := by
  intro pairs
  induction pairs with
  | nil =>
    intro keys kf values vf nt ntf heq heven hbound
    rw [transform_tags_static] at heq
    simp only [Except.ok.injEq, Prod.mk.injEq] at heq
    obtain ⟨rfl, rfl, rfl⟩ := heq
    refine ⟨List.prefix_refl _, List.prefix_refl _, heven, hbound,
      fun p hp => hp, ?_, ?_, by simp⟩
    · intro j h1 h2; omega
    · intro j h1 h2; omega
  | cons pr rest ih =>
    intro keys kf values vf nt ntf heq heven hbound
    obtain ⟨a, b⟩ := pr
    rw [transform_tags_static] at heq
    cases hga : K.get? a with
    | none => rw [hga] at heq; cases hgb : V.get? b <;> rw [hgb] at heq <;> simp at heq
    | some key =>
      cases hgb : V.get? b with
      | none => rw [hga, hgb] at heq; simp at heq
      | some value =>
        rw [hga, hgb] at heq
        simp only at heq
        have hga2 : K[a]? = some key := by
          rw [← List.get?_eq_getElem?]; exact hga
        have hgb2 : V[b]? = some value := by
          rw [← List.get?_eq_getElem?]; exact hgb
        by_cases hskip : (match nameCapture key with
          | some lang => decide (lang ≠ ("") ∧ lang ≠ ("ja"))
          | none => false) = true
        · rw [if_pos hskip] at heq
          obtain ⟨pk, pv, ev, bd, mono, newk, newv, hmat⟩ :=
            ih keys kf values vf nt ntf heq heven hbound
          refine ⟨pk, pv, ev, bd, mono, newk, newv, ?_⟩
          rw [hmat]
          have hkept : tagKeyKept key = false := by
            unfold tagKeyKept
            rw [hskip]
            simp
          simp [List.filterMap_cons, hga2, hgb2, hkept]
        · rw [if_neg hskip] at heq
          by_cases hpgf : strStartsWith key ("pgf:name:") = true
          · rw [if_pos hpgf] at heq
            obtain ⟨pk, pv, ev, bd, mono, newk, newv, hmat⟩ :=
              ih keys kf values vf nt ntf heq heven hbound
            refine ⟨pk, pv, ev, bd, mono, newk, newv, ?_⟩
            rw [hmat]
            have hkept : tagKeyKept key = false := by
              unfold tagKeyKept
              rw [hpgf]
              simp
            simp [List.filterMap_cons, hga2, hgb2, hkept]
          · rw [if_neg hpgf] at heq
            obtain ⟨ikp, iki, ikg, ikc⟩ := internIdx_spec keys key
            obtain ⟨ivp, ivi, ivg, ivc⟩ := internIdx_spec values value
            have heven2 : (nt ++ [(internIdx keys key).2,
                (internIdx values value).2]).length % 2 = 0 := by
              simp; omega
            have hchunks2 : chunksExact2 (nt ++ [(internIdx keys key).2,
                (internIdx values value).2]) =
                chunksExact2 nt ++ [((internIdx keys key).2,
                  (internIdx values value).2)] :=
              chunksExact2_append_pair nt _ _ heven
            have hbound2 : ∀ p ∈ chunksExact2 (nt ++ [(internIdx keys key).2,
                (internIdx values value).2]),
                p.1 < (internIdx keys key).1.length ∧
                p.2 < (internIdx values value).1.length := by
              intro p hp
              rw [hchunks2] at hp
              rcases List.mem_append.mp hp with hold | hnew
              · obtain ⟨b1, b2⟩ := hbound p hold
                exact ⟨Nat.lt_of_lt_of_le b1 ikp.length_le,
                  Nat.lt_of_lt_of_le b2 ivp.length_le⟩
              · obtain rfl := List.mem_singleton.mp hnew
                exact ⟨iki, ivi⟩
            obtain ⟨pk, pv, ev, bd, mono, newk, newv, hmat⟩ :=
              ih (internIdx keys key).1 kf (internIdx values value).1 vf
                (nt ++ [(internIdx keys key).2, (internIdx values value).2]) ntf
                heq heven2 hbound2
            have hkept : tagKeyKept key = true := by
              unfold tagKeyKept
              simp only [Bool.not_eq_true] at hskip hpgf
              rw [hskip, hpgf]
              simp
            have hmemnew : ((internIdx keys key).2, (internIdx values value).2)
                ∈ chunksExact2 ntf := by
              apply mono
              rw [hchunks2]
              exact List.mem_append_right _ (List.mem_singleton_self _)
            refine ⟨ikp.trans pk, ivp.trans pv, ev, bd, ?_, ?_, ?_, ?_⟩
            · intro p hp
              apply mono
              rw [hchunks2]
              exact List.mem_append_left _ hp
            · intro j h1 h2
              by_cases hj : j < (internIdx keys key).1.length
              · rcases ikc with hsame | ⟨happ, hidx⟩
                · rw [hsame] at hj; omega
                · have hjl : j = keys.length := by
                    rw [happ] at hj; simp at hj; omega
                  exact ⟨((internIdx keys key).2, (internIdx values value).2),
                    hmemnew, by simp [hidx, hjl]⟩
              · exact newk j (Nat.le_of_not_lt hj) h2
            · intro j h1 h2
              by_cases hj : j < (internIdx values value).1.length
              · rcases ivc with hsame | ⟨happ, hidx⟩
                · rw [hsame] at hj; omega
                · have hjl : j = values.length := by
                    rw [happ] at hj; simp at hj; omega
                  exact ⟨((internIdx keys key).2, (internIdx values value).2),
                    hmemnew, by simp [hidx, hjl]⟩
              · exact newv j (Nat.le_of_not_lt hj) h2
            · rw [hmat]
              have hgk : kf.get? (internIdx keys key).2 = some key := by
                rw [get?_of_prefix_eq pk _ iki]; exact ikg
              have hgv : vf.get? (internIdx values value).2 = some value := by
                rw [get?_of_prefix_eq pv _ ivi]; exact ivg
              rw [matPairs_append_pair kf vf nt _ _ key value heven hgk hgv]
              simp [List.filterMap_cons, hga2, hgb2, hkept]

theorem matPairs_filter_eq (K : List String) (V : List MvtValue)
    (tags : List Nat) :
    (matPairs K V tags).filter (fun kv => tagKeyKept kv.1) =
      (chunksExact2 tags).filterMap (fun p =>
        match K.get? p.1, V.get? p.2 with
        | some k, some v => if tagKeyKept k then some (k, v) else none
        | _, _ => none) := by
  unfold matPairs
  rw [List.filter_filterMap]
  apply List.filterMap_congr
  intro p _
  cases K.get? p.1 <;> cases V.get? p.2 <;> simp [Option.filter]

theorem mapM_ok_spec {α β : Type} (f : α → Except String β)
    (xs : List α) (ys : List β) (h : xs.mapM f = .ok ys) :
    ys.length = xs.length ∧ ∀ i (hi : i < xs.length) (hi2 : i < ys.length),
      f (xs.get ⟨i, hi⟩) = .ok (ys.get ⟨i, hi2⟩) := by
  rw [← List.mapM'_eq_mapM] at h
  induction xs generalizing ys with
  | nil =>
    simp only [List.mapM'] at h
    obtain rfl : ([] : List β) = ys := by
      simpa [pure, Except.pure] using h
    exact ⟨rfl, fun i hi => by simp at hi⟩
  | cons x xs ih =>
    simp only [List.mapM', bind, Except.bind, pure, Except.pure] at h
    cases hx : f x with
    | error e => rw [hx] at h; simp at h
    | ok y =>
      rw [hx] at h
      cases hxs : List.mapM' f xs with
      | error e => rw [hxs] at h; simp at h
      | ok ys2 =>
        rw [hxs] at h
        simp only [Except.ok.injEq] at h
        obtain rfl := h.symm
        obtain ⟨hlen, hidx⟩ := ih ys2 hxs
        constructor
        · simp [hlen]
        · intro i hi hi2
          cases i with
          | zero => simpa using hx
          | succ n =>
            have hn : n < xs.length := by simpa using hi
            have hn2 : n < ys2.length := by simpa using hi2
            simpa using hidx n hn hn2

theorem dyn_state_step (K : List String) (V : List MvtValue)
    (keys : List String) (values : List MvtValue) (acc : List Feature)
    (f2 : Feature)
    (hb : ∀ f ∈ acc, f.tags.length % 2 = 0 ∧
      ∀ p ∈ chunksExact2 f.tags, p.1 < keys.length ∧ p.2 < values.length)
    (hrk : ∀ j, j < keys.length →
      ∃ f ∈ acc, ∃ p ∈ chunksExact2 f.tags, p.1 = j)
    (hrv : ∀ j, j < values.length →
      ∃ f ∈ acc, ∃ p ∈ chunksExact2 f.tags, p.2 = j) :
    (keys <+: (transform_tags_dynamic K V (chunksExact2 f2.tags) keys values []).1) ∧
    (values <+: (transform_tags_dynamic K V (chunksExact2 f2.tags) keys values []).2.1) ∧
    (∀ f ∈ acc ++ [{ f2 with tags :=
        (transform_tags_dynamic K V (chunksExact2 f2.tags) keys values []).2.2 }],
      f.tags.length % 2 = 0 ∧ ∀ p ∈ chunksExact2 f.tags,
        p.1 < (transform_tags_dynamic K V (chunksExact2 f2.tags) keys values []).1.length ∧
        p.2 < (transform_tags_dynamic K V (chunksExact2 f2.tags) keys values []).2.1.length) ∧
    (∀ j, j < (transform_tags_dynamic K V (chunksExact2 f2.tags) keys values []).1.length →
      ∃ f ∈ acc ++ [{ f2 with tags :=
        (transform_tags_dynamic K V (chunksExact2 f2.tags) keys values []).2.2 }],
        ∃ p ∈ chunksExact2 f.tags, p.1 = j) ∧
    (∀ j, j < (transform_tags_dynamic K V (chunksExact2 f2.tags) keys values []).2.1.length →
      ∃ f ∈ acc ++ [{ f2 with tags :=
        (transform_tags_dynamic K V (chunksExact2 f2.tags) keys values []).2.2 }],
        ∃ p ∈ chunksExact2 f.tags, p.2 = j) := by
  obtain ⟨pk, pv, ev, bd, _mono, newk, newv⟩ :=
    transform_tags_dynamic_spec K V (chunksExact2 f2.tags) keys
      (transform_tags_dynamic K V (chunksExact2 f2.tags) keys values []).1
      values
      (transform_tags_dynamic K V (chunksExact2 f2.tags) keys values []).2.1
      []
      (transform_tags_dynamic K V (chunksExact2 f2.tags) keys values []).2.2
      rfl (by simp) (by simp [chunksExact2])
  refine ⟨pk, pv, ?_, ?_, ?_⟩
  · intro f hf
    rcases List.mem_append.mp hf with hfa | hfnew
    · obtain ⟨he, hbp⟩ := hb f hfa
      refine ⟨he, fun p hp => ?_⟩
      obtain ⟨b1, b2⟩ := hbp p hp
      exact ⟨Nat.lt_of_lt_of_le b1 pk.length_le,
        Nat.lt_of_lt_of_le b2 pv.length_le⟩
    · obtain rfl := List.mem_singleton.mp hfnew
      exact ⟨ev, bd⟩
  · intro j hj
    by_cases hjold : j < keys.length
    · obtain ⟨f, hf, hp⟩ := hrk j hjold
      exact ⟨f, List.mem_append_left _ hf, hp⟩
    · obtain ⟨p, hp, hpj⟩ := newk j (Nat.le_of_not_lt hjold) hj
      exact ⟨_, List.mem_append_right _ (List.mem_singleton_self _), p, hp, hpj⟩
  · intro j hj
    by_cases hjold : j < values.length
    · obtain ⟨f, hf, hp⟩ := hrv j hjold
      exact ⟨f, List.mem_append_left _ hf, hp⟩
    · obtain ⟨p, hp, hpj⟩ := newv j (Nat.le_of_not_lt hjold) hj
      exact ⟨_, List.mem_append_right _ (List.mem_singleton_self _), p, hp, hpj⟩

theorem transform_features_dynamic_spec {GJ G : Type} (gm : GeoModel GJ G)
    (rx : RegexModel) (filters : Option (FilterCollection GJ))
    (layer_name : String) (K : List String) (V : List MvtValue) :
    ∀ (feats : List Feature) (keys kf : List String)
      (values vf : List MvtValue) (acc fsF : List Feature),
    transform_features_dynamic gm rx filters layer_name K V feats keys values
      acc = .ok (kf, vf, fsF) →
    (∀ f ∈ acc, f.tags.length % 2 = 0 ∧
      ∀ p ∈ chunksExact2 f.tags, p.1 < keys.length ∧ p.2 < values.length) →
    (∀ j, j < keys.length → ∃ f ∈ acc, ∃ p ∈ chunksExact2 f.tags, p.1 = j) →
    (∀ j, j < values.length → ∃ f ∈ acc, ∃ p ∈ chunksExact2 f.tags, p.2 = j) →
    (∀ f ∈ fsF, f.tags.length % 2 = 0 ∧
      ∀ p ∈ chunksExact2 f.tags, p.1 < kf.length ∧ p.2 < vf.length) ∧
    (∀ j, j < kf.length → ∃ f ∈ fsF, ∃ p ∈ chunksExact2 f.tags, p.1 = j) ∧
    (∀ j, j < vf.length → ∃ f ∈ fsF, ∃ p ∈ chunksExact2 f.tags, p.2 = j) := by
  intro feats
  induction feats with
  | nil =>
    intro keys kf values vf acc fsF heq hb hrk hrv
    rw [transform_features_dynamic] at heq
    simp only [Except.ok.injEq, Prod.mk.injEq] at heq
    obtain ⟨rfl, rfl, rfl⟩ := heq
    exact ⟨hb, hrk, hrv⟩
  | cons f rest ih =>
    intro keys kf values vf acc fsF heq hb hrk hrv
    rw [transform_features_dynamic] at heq
    simp only [bind, Except.bind] at heq
    cases hgeo : gm.to_geo f with
    | error e => rw [hgeo] at heq; simp at heq
    | ok g =>
      rw [hgeo] at heq
      dsimp only at heq
      cases filters with
      | none =>
        dsimp only [pure, Except.pure] at heq
        obtain ⟨pk, pv, hb2, hrk2, hrv2⟩ := dyn_state_step K V keys values acc f hb hrk hrv
        exact ih _ kf _ vf _ fsF heq hb2 hrk2 hrv2
      | some fc =>
        dsimp only at heq
        cases happ : apply_feature_filters gm rx fc f g layer_name K V with
        | error e => rw [happ] at heq; simp at heq
        | ok res =>
          rw [happ] at heq
          dsimp only at heq
          by_cases hres : res.1 = true
          · rw [if_pos hres] at heq
            dsimp only [pure, Except.pure] at heq
            obtain ⟨pk, pv, hb2, hrk2, hrv2⟩ :=
              dyn_state_step K V keys values acc { f with tags := res.2 } hb hrk hrv
            exact ih _ kf _ vf _ fsF heq hb2 hrk2 hrv2
          · rw [if_neg hres] at heq
            dsimp only [pure, Except.pure] at heq
            exact ih _ kf _ vf _ fsF heq hb hrk hrv

theorem static_state_step (K : List String) (V : List MvtValue)
    (keys k2 : List String) (values v2 : List MvtValue) (acc : List Feature)
    (f2 : Feature) (nt2 : List Nat)
    (heqt : transform_tags_static K V (chunksExact2 f2.tags) keys values [] =
      .ok (k2, v2, nt2))
    (hb : ∀ f ∈ acc, f.tags.length % 2 = 0 ∧
      ∀ p ∈ chunksExact2 f.tags, p.1 < keys.length ∧ p.2 < values.length)
    (hrk : ∀ j, j < keys.length →
      ∃ f ∈ acc, ∃ p ∈ chunksExact2 f.tags, p.1 = j)
    (hrv : ∀ j, j < values.length →
      ∃ f ∈ acc, ∃ p ∈ chunksExact2 f.tags, p.2 = j) :
    (keys <+: k2) ∧ (values <+: v2) ∧
    (∀ f ∈ acc ++ [{ f2 with tags := nt2 }],
      f.tags.length % 2 = 0 ∧ ∀ p ∈ chunksExact2 f.tags,
        p.1 < k2.length ∧ p.2 < v2.length) ∧
    (∀ j, j < k2.length → ∃ f ∈ acc ++ [{ f2 with tags := nt2 }],
      ∃ p ∈ chunksExact2 f.tags, p.1 = j) ∧
    (∀ j, j < v2.length → ∃ f ∈ acc ++ [{ f2 with tags := nt2 }],
      ∃ p ∈ chunksExact2 f.tags, p.2 = j) := by
  obtain ⟨pk, pv, ev, bd, _mono, newk, newv, _hmat⟩ :=
    transform_tags_static_spec K V (chunksExact2 f2.tags) keys k2 values v2
      [] nt2 heqt (by simp) (by simp [chunksExact2])
  refine ⟨pk, pv, ?_, ?_, ?_⟩
  · intro f hf
    rcases List.mem_append.mp hf with hfa | hfnew
    · obtain ⟨he, hbp⟩ := hb f hfa
      refine ⟨he, fun p hp => ?_⟩
      obtain ⟨b1, b2⟩ := hbp p hp
      exact ⟨Nat.lt_of_lt_of_le b1 pk.length_le,
        Nat.lt_of_lt_of_le b2 pv.length_le⟩
    · obtain rfl := List.mem_singleton.mp hfnew
      exact ⟨ev, bd⟩
  · intro j hj
    by_cases hjold : j < keys.length
    · obtain ⟨f, hf, hp⟩ := hrk j hjold
      exact ⟨f, List.mem_append_left _ hf, hp⟩
    · obtain ⟨p, hp, hpj⟩ := newk j (Nat.le_of_not_lt hjold) hj
      exact ⟨_, List.mem_append_right _ (List.mem_singleton_self _), p, hp, hpj⟩
  · intro j hj
    by_cases hjold : j < values.length
    · obtain ⟨f, hf, hp⟩ := hrv j hjold
      exact ⟨f, List.mem_append_left _ hf, hp⟩
    · obtain ⟨p, hp, hpj⟩ := newv j (Nat.le_of_not_lt hjold) hj
      exact ⟨_, List.mem_append_right _ (List.mem_singleton_self _), p, hp, hpj⟩

theorem transform_features_static_spec {GJ G : Type} (gm : GeoModel GJ G)
    (layer_name : String) (K : List String) (V : List MvtValue)
    (fg : Option G) :
    ∀ (feats : List Feature) (keys kf : List String)
      (values vf : List MvtValue) (acc fsF : List Feature),
    transform_features_static gm layer_name K V fg feats keys values acc =
      .ok (kf, vf, fsF) →
    (∀ f ∈ acc, f.tags.length % 2 = 0 ∧
      ∀ p ∈ chunksExact2 f.tags, p.1 < keys.length ∧ p.2 < values.length) →
    (∀ j, j < keys.length → ∃ f ∈ acc, ∃ p ∈ chunksExact2 f.tags, p.1 = j) →
    (∀ j, j < values.length → ∃ f ∈ acc, ∃ p ∈ chunksExact2 f.tags, p.2 = j) →
    (∀ f ∈ fsF, f.tags.length % 2 = 0 ∧
      ∀ p ∈ chunksExact2 f.tags, p.1 < kf.length ∧ p.2 < vf.length) ∧
    (∀ j, j < kf.length → ∃ f ∈ fsF, ∃ p ∈ chunksExact2 f.tags, p.1 = j) ∧
    (∀ j, j < vf.length → ∃ f ∈ fsF, ∃ p ∈ chunksExact2 f.tags, p.2 = j) := by
  intro feats
  induction feats with
  | nil =>
    intro keys kf values vf acc fsF heq hb hrk hrv
    rw [transform_features_static] at heq
    simp only [Except.ok.injEq, Prod.mk.injEq] at heq
    obtain ⟨rfl, rfl, rfl⟩ := heq
    exact ⟨hb, hrk, hrv⟩
  | cons f rest ih =>
    intro keys kf values vf acc fsF heq hb hrk hrv
    rw [transform_features_static.eq_def] at heq
    dsimp only at heq
    simp only [bind, Except.bind] at heq
    cases fg with
    | none =>
      dsimp only [pure, Except.pure] at heq
      cases hres : transform_tags_static K V (chunksExact2 f.tags) keys values [] with
      | error e => rw [hres] at heq; simp at heq
      | ok res =>
        rw [hres] at heq
        dsimp only at heq
        obtain ⟨pk, pv, hb2, hrk2, hrv2⟩ := static_state_step K V keys res.1
          values res.2.1 acc f res.2.2 (by rw [hres]) hb hrk hrv
        exact ih _ kf _ vf _ fsF heq hb2 hrk2 hrv2
    | some fgv =>
      cases hgeo : gm.to_geo f with
      | error e => rw [hgeo] at heq; simp at heq
      | ok g =>
        rw [hgeo] at heq
        dsimp only at heq
        by_cases hint : gm.intersects g fgv = true
        · rw [if_pos hint] at heq
          by_cases hnm : (layer_name = ("boundaries") ∨ layer_name = ("roads")
              ∨ layer_name = ("buildings"))
          · rw [if_pos hnm] at heq
            dsimp only [pure, Except.pure] at heq
            exact ih _ kf _ vf _ fsF heq hb hrk hrv
          · rw [if_neg hnm] at heq
            by_cases hnm2 : ((layer_name = ("earth") ∨ layer_name = ("water")
                ∨ layer_name = ("pois") ∨ layer_name = ("places"))
                ∧ gm.kind g = GeomKind.point)
            · rw [if_pos hnm2] at heq
              dsimp only [pure, Except.pure] at heq
              exact ih _ kf _ vf _ fsF heq hb hrk hrv
            · rw [if_neg hnm2] at heq
              dsimp only [pure, Except.pure] at heq
              cases hres : transform_tags_static K V (chunksExact2 f.tags)
                  keys values [] with
              | error e => rw [hres] at heq; simp at heq
              | ok res =>
                rw [hres] at heq
                dsimp only at heq
                obtain ⟨pk, pv, hb2, hrk2, hrv2⟩ := static_state_step K V keys
                  res.1 values res.2.1 acc f res.2.2 (by rw [hres]) hb hrk hrv
                exact ih _ kf _ vf _ fsF heq hb2 hrk2 hrv2
        · rw [if_neg hint] at heq
          dsimp only [pure, Except.pure] at heq
          cases hres : transform_tags_static K V (chunksExact2 f.tags)
              keys values [] with
          | error e => rw [hres] at heq; simp at heq
          | ok res =>
            rw [hres] at heq
            dsimp only at heq
            obtain ⟨pk, pv, hb2, hrk2, hrv2⟩ := static_state_step K V keys
              res.1 values res.2.1 acc f res.2.2 (by rw [hres]) hb hrk hrv
            exact ih _ kf _ vf _ fsF heq hb2 hrk2 hrv2

theorem transform_layer_static_spec {GJ G : Type} (gm : GeoModel GJ G)
    (coords : TileCoordinates) (fg : Option G) (L L2 : Layer)
    (h : transform_layer_static gm coords fg L = .ok L2) :
    L2.name = L.name ∧ L2.extent = L.extent ∧ L2.version = L.version ∧
    (∀ f ∈ L2.features, f.tags.length % 2 = 0 ∧
      ∀ p ∈ chunksExact2 f.tags, p.1 < L2.keys.length ∧ p.2 < L2.values.length) ∧
    (∀ j, j < L2.keys.length →
      ∃ f ∈ L2.features, ∃ p ∈ chunksExact2 f.tags, p.1 = j) ∧
    (∀ j, j < L2.values.length →
      ∃ f ∈ L2.features, ∃ p ∈ chunksExact2 f.tags, p.2 = j) := by
  rw [transform_layer_static] at h
  simp only [bind, Except.bind] at h
  split at h
  · simp at h
  · next res hres =>
    simp only [pure, Except.pure, Except.ok.injEq] at h
    obtain ⟨sp1, sp2, sp3⟩ := transform_features_static_spec gm L.name L.keys
      L.values _ L.features [] res.1 [] res.2.1 [] res.2.2
      (by rw [hres]) (by simp) (by simp) (by simp)
    rw [← h]
    exact ⟨rfl, rfl, rfl, sp1, sp2, sp3⟩

theorem transform_layer_dynamic_spec {GJ G : Type} (gm : GeoModel GJ G)
    (rx : RegexModel) (filters : Option (FilterCollection GJ)) (L L2 : Layer)
    (h : transform_layer_dynamic gm rx filters L = .ok L2) :
    L2.name = L.name ∧ L2.extent = L.extent ∧ L2.version = L.version ∧
    (∀ f ∈ L2.features, f.tags.length % 2 = 0 ∧
      ∀ p ∈ chunksExact2 f.tags, p.1 < L2.keys.length ∧ p.2 < L2.values.length) ∧
    (∀ j, j < L2.keys.length →
      ∃ f ∈ L2.features, ∃ p ∈ chunksExact2 f.tags, p.1 = j) ∧
    (∀ j, j < L2.values.length →
      ∃ f ∈ L2.features, ∃ p ∈ chunksExact2 f.tags, p.2 = j) := by
  rw [transform_layer_dynamic] at h
  simp only [bind, Except.bind] at h
  split at h
  · simp at h
  · next res hres =>
    simp only [pure, Except.pure, Except.ok.injEq] at h
    obtain ⟨sp1, sp2, sp3⟩ := transform_features_dynamic_spec gm rx filters
      L.name L.keys L.values L.features [] res.1 [] res.2.1 [] res.2.2
      (by rw [hres]) (by simp) (by simp) (by simp)
    rw [← h]
    exact ⟨rfl, rfl, rfl, sp1, sp2, sp3⟩

/-- C4: in every tile emitted by either transform path, every layer's
rebuilt key and value dictionaries contain only entries referenced by at
least one surviving feature tag, every feature's tag list has even length,
and every key/value index in a tag list is in range of the rebuilt
dictionaries. -/
theorem C4_rebuilt_dictionary_invariants {GJ G : Type} (gm : GeoModel GJ G)
    (rx : RegexModel) (coords : TileCoordinates) (fg : Option G)
    (filters : Option (FilterCollection GJ)) (tile tile2 out1 out2 : Tile)
    (hs : transform_tile gm coords fg tile = .ok out1)
    (hd : transform_tile_dynamic gm rx filters tile2 = .ok out2) :
    (∀ layer ∈ out1.layers,
      (∀ f ∈ layer.features, f.tags.length % 2 = 0 ∧
        ∀ p ∈ chunksExact2 f.tags,
          p.1 < layer.keys.length ∧ p.2 < layer.values.length) ∧
      (∀ j, j < layer.keys.length →
        ∃ f ∈ layer.features, ∃ p ∈ chunksExact2 f.tags, p.1 = j) ∧
      (∀ j, j < layer.values.length →
        ∃ f ∈ layer.features, ∃ p ∈ chunksExact2 f.tags, p.2 = j)) ∧
    (∀ layer ∈ out2.layers,
      (∀ f ∈ layer.features, f.tags.length % 2 = 0 ∧
        ∀ p ∈ chunksExact2 f.tags,
          p.1 < layer.keys.length ∧ p.2 < layer.values.length) ∧
      (∀ j, j < layer.keys.length →
        ∃ f ∈ layer.features, ∃ p ∈ chunksExact2 f.tags, p.1 = j) ∧
      (∀ j, j < layer.values.length →
        ∃ f ∈ layer.features, ∃ p ∈ chunksExact2 f.tags, p.2 = j)) := by
  constructor
  · intro layer hmem
    rw [transform_tile] at hs
    simp only [bind, Except.bind] at hs
    cases hml : tile.layers.mapM (transform_layer_static gm coords fg) with
    | error e => rw [hml] at hs; simp at hs
    | ok ls =>
      rw [hml] at hs
      simp only [pure, Except.pure, Except.ok.injEq] at hs
      have hls : layer ∈ ls := by rw [← hs] at hmem; exact hmem
      obtain ⟨n, hn⟩ := List.mem_iff_get.mp hls
      obtain ⟨hlen, hidx⟩ := mapM_ok_spec _ tile.layers ls hml
      have hn2 : (n : Nat) < tile.layers.length := by
        have := n.isLt; omega
      have heq := hidx n hn2 n.isLt
      rw [hn] at heq
      obtain ⟨-, -, -, c1, c2, c3⟩ :=
        transform_layer_static_spec gm coords fg _ layer heq
      exact ⟨c1, c2, c3⟩
  · intro layer hmem
    rw [transform_tile_dynamic] at hd
    simp only [bind, Except.bind] at hd
    cases hml : tile2.layers.mapM (transform_layer_dynamic gm rx filters) with
    | error e => rw [hml] at hd; simp at hd
    | ok ls =>
      rw [hml] at hd
      simp only [pure, Except.pure, Except.ok.injEq] at hd
      have hls : layer ∈ ls := by rw [← hd] at hmem; exact hmem
      obtain ⟨n, hn⟩ := List.mem_iff_get.mp hls
      obtain ⟨hlen, hidx⟩ := mapM_ok_spec _ tile2.layers ls hml
      have hn2 : (n : Nat) < tile2.layers.length := by
        have := n.isLt; omega
      have heq := hidx n hn2 n.isLt
      rw [hn] at heq
      obtain ⟨-, -, -, c1, c2, c3⟩ :=
        transform_layer_dynamic_spec gm rx filters _ layer heq
      exact ⟨c1, c2, c3⟩

/-- C4 witness: the theorem applied to the concrete tile `tileW` (one
feature referencing one of two dictionary entries) on both transform
paths. -/
theorem C4_witness :
    (∀ layer ∈ tileWout.layers,
      (∀ f ∈ layer.features, f.tags.length % 2 = 0 ∧
        ∀ p ∈ chunksExact2 f.tags,
          p.1 < layer.keys.length ∧ p.2 < layer.values.length) ∧
      (∀ j, j < layer.keys.length →
        ∃ f ∈ layer.features, ∃ p ∈ chunksExact2 f.tags, p.1 = j) ∧
      (∀ j, j < layer.values.length →
        ∃ f ∈ layer.features, ∃ p ∈ chunksExact2 f.tags, p.2 = j)) ∧
    (∀ layer ∈ tileWout.layers,
      (∀ f ∈ layer.features, f.tags.length % 2 = 0 ∧
        ∀ p ∈ chunksExact2 f.tags,
          p.1 < layer.keys.length ∧ p.2 < layer.values.length) ∧
      (∀ j, j < layer.keys.length →
        ∃ f ∈ layer.features, ∃ p ∈ chunksExact2 f.tags, p.1 = j) ∧
      (∀ j, j < layer.values.length →
        ∃ f ∈ layer.features, ∃ p ∈ chunksExact2 f.tags, p.2 = j)) :=
  C4_rebuilt_dictionary_invariants gmU rxU coordsU none none tileW tileW
    tileWout tileWout (by rfl) (by rfl)

theorem transform_features_static_none_mat {GJ G : Type} (gm : GeoModel GJ G)
    (layer_name : String) (K : List String) (V : List MvtValue) :
    ∀ (feats : List Feature) (keys kf : List String)
      (values vf : List MvtValue) (acc fsF : List Feature),
    transform_features_static gm layer_name K V none feats keys values acc =
      .ok (kf, vf, fsF) →
    (∀ f ∈ acc, f.tags.length % 2 = 0 ∧
      ∀ p ∈ chunksExact2 f.tags, p.1 < keys.length ∧ p.2 < values.length) →
    (keys <+: kf) ∧ (values <+: vf) ∧
    ∃ newFs, fsF = acc ++ newFs ∧ newFs.length = feats.length ∧
      ∀ j (hj : j < feats.length) (hj2 : j < newFs.length),
        (newFs.get ⟨j, hj2⟩).id = (feats.get ⟨j, hj⟩).id ∧
        (newFs.get ⟨j, hj2⟩).ftype = (feats.get ⟨j, hj⟩).ftype ∧
        (newFs.get ⟨j, hj2⟩).geometry = (feats.get ⟨j, hj⟩).geometry ∧
        matPairs kf vf (newFs.get ⟨j, hj2⟩).tags =
          (matPairs K V (feats.get ⟨j, hj⟩).tags).filter
            (fun kv => tagKeyKept kv.1) := by
  intro feats
  induction feats with
  | nil =>
    intro keys kf values vf acc fsF heq hb
    rw [transform_features_static] at heq
    simp only [Except.ok.injEq, Prod.mk.injEq] at heq
    obtain ⟨rfl, rfl, rfl⟩ := heq
    refine ⟨List.prefix_refl _, List.prefix_refl _, [], by simp, rfl, ?_⟩
    intro j hj; simp at hj
  | cons f rest ih =>
    intro keys kf values vf acc fsF heq hb
    rw [transform_features_static.eq_def] at heq
    dsimp only at heq
    simp only [bind, Except.bind, pure, Except.pure, Bool.false_eq_true,
      if_false] at heq
    cases hres : transform_tags_static K V (chunksExact2 f.tags) keys values [] with
    | error e => rw [hres] at heq; simp at heq
    | ok res =>
      rw [hres] at heq
      dsimp only at heq
      obtain ⟨pk0, pv0, ev, bd, _mono, _newk, _newv, hmat⟩ :=
        transform_tags_static_spec K V (chunksExact2 f.tags) keys res.1
          values res.2.1 [] res.2.2 (by rw [hres]) (by simp)
          (by simp [chunksExact2])
      have hb2 : ∀ g ∈ acc ++ [{ f with tags := res.2.2 }],
          g.tags.length % 2 = 0 ∧ ∀ p ∈ chunksExact2 g.tags,
            p.1 < res.1.length ∧ p.2 < res.2.1.length := by
        intro g hg
        rcases List.mem_append.mp hg with hga | hgnew
        · obtain ⟨he, hbp⟩ := hb g hga
          refine ⟨he, fun p hp => ?_⟩
          obtain ⟨b1, b2⟩ := hbp p hp
          exact ⟨Nat.lt_of_lt_of_le b1 pk0.length_le,
            Nat.lt_of_lt_of_le b2 pv0.length_le⟩
        · obtain rfl := List.mem_singleton.mp hgnew
          exact ⟨ev, bd⟩
      obtain ⟨pk, pv, newFs2, hfs, hlen, hprops⟩ :=
        ih res.1 kf res.2.1 vf (acc ++ [{ f with tags := res.2.2 }]) fsF
          heq hb2
      refine ⟨pk0.trans pk, pv0.trans pv,
        { f with tags := res.2.2 } :: newFs2, by simp [hfs], by simp [hlen], ?_⟩
      intro j hj hj2
      cases j with
      | zero =>
        refine ⟨rfl, rfl, rfl, ?_⟩
        have hstab : matPairs kf vf res.2.2 = matPairs res.1 res.2.1 res.2.2 :=
          matPairs_stable res.1 kf res.2.1 vf res.2.2 pk pv bd
        have hm0 : matPairs res.1 res.2.1 ([] : List Nat) = [] := by
          simp [matPairs, chunksExact2]
        simp only [List.get]
        rw [hstab, hmat, hm0, List.nil_append, matPairs_filter_eq]
      | succ n =>
        have hn : n < rest.length := by simpa using hj
        have hn2 : n < newFs2.length := by simpa using hj2
        have := hprops n hn hn2
        simpa using this


theorem transform_layer_static_none_spec {GJ G : Type} (gm : GeoModel GJ G)
    (coords : TileCoordinates) (L L2 : Layer)
    (h : transform_layer_static gm coords none L = .ok L2) :
    L2.name = L.name ∧ L2.extent = L.extent ∧ L2.version = L.version ∧
    L2.features.length = L.features.length ∧
    ∀ j (hj : j < L.features.length) (hj2 : j < L2.features.length),
      ((L2.features.get ⟨j, hj2⟩).id = (L.features.get ⟨j, hj⟩).id) ∧
      ((L2.features.get ⟨j, hj2⟩).ftype = (L.features.get ⟨j, hj⟩).ftype) ∧
      ((L2.features.get ⟨j, hj2⟩).geometry = (L.features.get ⟨j, hj⟩).geometry) ∧
      matPairs L2.keys L2.values (L2.features.get ⟨j, hj2⟩).tags =
        (matPairs L.keys L.values (L.features.get ⟨j, hj⟩).tags).filter
          (fun kv => tagKeyKept kv.1) := by
  rw [transform_layer_static] at h
  simp only [bind, Except.bind, Option.map_none', Option.join,
    Option.none_bind] at h
  split at h
  · simp at h
  · next res hres =>
    simp only [pure, Except.pure, Except.ok.injEq] at h
    obtain ⟨-, -, newFs, hfs, hlen, hprops⟩ :=
      transform_features_static_none_mat gm L.name L.keys L.values L.features
        [] res.1 [] res.2.1 [] res.2.2 (by rw [hres]) (by simp)
    rw [List.nil_append] at hfs
    subst h
    refine ⟨rfl, rfl, rfl, by simp [hfs, hlen], ?_⟩
    intro j hj hj2
    have hj2b : j < res.2.2.length := hj2
    have hj3 : j < newFs.length := by rw [← hfs]; exact hj2b
    have hget : res.2.2.get ⟨j, hj2b⟩ = newFs.get ⟨j, hj3⟩ := by
      apply Option.some.inj
      rw [← List.get?_eq_get, ← List.get?_eq_get, hfs]
    have hp := hprops j hj hj3
    show (res.2.2.get ⟨j, hj2b⟩).id = (L.features.get ⟨j, hj⟩).id ∧
      (res.2.2.get ⟨j, hj2b⟩).ftype = (L.features.get ⟨j, hj⟩).ftype ∧
      (res.2.2.get ⟨j, hj2b⟩).geometry = (L.features.get ⟨j, hj⟩).geometry ∧
      matPairs res.1 res.2.1 (res.2.2.get ⟨j, hj2b⟩).tags =
        (matPairs L.keys L.values (L.features.get ⟨j, hj⟩).tags).filter
          (fun kv => tagKeyKept kv.1)
    rw [hget]
    exact hp

/-- C2 amended: with no filter, `transform_tile` preserves every layer (name,
extent, version) and every feature (count, id, type, geometry), but it does
not preserve every tag: a tag survives iff its key passes the built-in
name-language filter (`tagKeyKept`) — `name:<lang>` keys with a language
other than empty or `ja`, and `pgf:name:` keys, are removed even with no
filter — and surviving tags keep their key/value association under the
rebuilt dictionaries. -/
theorem C2_no_filter_tag_characterization {GJ G : Type} (gm : GeoModel GJ G)
    (coords : TileCoordinates) (tile out : Tile)
    (h : transform_tile gm coords none tile = .ok out) :
    out.layers.length = tile.layers.length ∧
    ∀ i (hi : i < tile.layers.length) (hi2 : i < out.layers.length),
      ((out.layers.get ⟨i, hi2⟩).name = (tile.layers.get ⟨i, hi⟩).name) ∧
      ((out.layers.get ⟨i, hi2⟩).extent = (tile.layers.get ⟨i, hi⟩).extent) ∧
      ((out.layers.get ⟨i, hi2⟩).version = (tile.layers.get ⟨i, hi⟩).version) ∧
      ((out.layers.get ⟨i, hi2⟩).features.length =
        (tile.layers.get ⟨i, hi⟩).features.length) ∧
      ∀ j (hj : j < (tile.layers.get ⟨i, hi⟩).features.length)
        (hj2 : j < (out.layers.get ⟨i, hi2⟩).features.length),
        (((out.layers.get ⟨i, hi2⟩).features.get ⟨j, hj2⟩).id =
          ((tile.layers.get ⟨i, hi⟩).features.get ⟨j, hj⟩).id) ∧
        (((out.layers.get ⟨i, hi2⟩).features.get ⟨j, hj2⟩).ftype =
          ((tile.layers.get ⟨i, hi⟩).features.get ⟨j, hj⟩).ftype) ∧
        (((out.layers.get ⟨i, hi2⟩).features.get ⟨j, hj2⟩).geometry =
          ((tile.layers.get ⟨i, hi⟩).features.get ⟨j, hj⟩).geometry) ∧
        matPairs (out.layers.get ⟨i, hi2⟩).keys
            (out.layers.get ⟨i, hi2⟩).values
            ((out.layers.get ⟨i, hi2⟩).features.get ⟨j, hj2⟩).tags =
          (matPairs (tile.layers.get ⟨i, hi⟩).keys
            (tile.layers.get ⟨i, hi⟩).values
            ((tile.layers.get ⟨i, hi⟩).features.get ⟨j, hj⟩).tags).filter
              (fun kv => tagKeyKept kv.1) := by
  rw [transform_tile] at h
  simp only [bind, Except.bind] at h
  cases hml : tile.layers.mapM (transform_layer_static gm coords none) with
  | error e => rw [hml] at h; simp at h
  | ok ls =>
    rw [hml] at h
    simp only [pure, Except.pure, Except.ok.injEq] at h
    obtain ⟨hlen, hidx⟩ := mapM_ok_spec _ tile.layers ls hml
    have houtl : out.layers = ls := by rw [← h]
    constructor
    · rw [houtl]; exact hlen
    · intro i hi hi2
      have hi3 : i < ls.length := by rw [← houtl]; exact hi2
      have heq := hidx i hi hi3
      have hout : out.layers.get ⟨i, hi2⟩ = ls.get ⟨i, hi3⟩ := by
        apply Option.some.inj
        rw [← List.get?_eq_get, ← List.get?_eq_get, houtl]
      rw [hout]
      exact transform_layer_static_none_spec gm coords _ _ heq

/-- C2 counterexample: with no filter, `transform_tile` still removes the
`name:en` tag of `tileC2` — the output is not the decode/re-encode identity
on the input, a tag did not survive. -/
theorem C2_counterexample :
    transform_tile gmU coordsU none tileC2 = .ok tileC2out ∧
    tileC2.layers.map (fun l => l.features.map
      (fun f => matPairs l.keys l.values f.tags)) =
      [[[(("name:en"), MvtValue.StringValue ("Shrine"))]]] ∧
    tileC2out.layers.map (fun l => l.features.map
      (fun f => matPairs l.keys l.values f.tags)) = [[[]]] := by
  refine ⟨by rfl, by rfl, by rfl⟩

/-- C2 witness: the amended theorem applied to the concrete tile `tileW`,
whose only tag key (`kind`) passes the name filter and survives. -/
theorem C2_witness :
    tileWout.layers.length = tileW.layers.length ∧
    ∀ i (hi : i < tileW.layers.length) (hi2 : i < tileWout.layers.length),
      ((tileWout.layers.get ⟨i, hi2⟩).name = (tileW.layers.get ⟨i, hi⟩).name) ∧
      ((tileWout.layers.get ⟨i, hi2⟩).extent = (tileW.layers.get ⟨i, hi⟩).extent) ∧
      ((tileWout.layers.get ⟨i, hi2⟩).version = (tileW.layers.get ⟨i, hi⟩).version) ∧
      ((tileWout.layers.get ⟨i, hi2⟩).features.length =
        (tileW.layers.get ⟨i, hi⟩).features.length) ∧
      ∀ j (hj : j < (tileW.layers.get ⟨i, hi⟩).features.length)
        (hj2 : j < (tileWout.layers.get ⟨i, hi2⟩).features.length),
        (((tileWout.layers.get ⟨i, hi2⟩).features.get ⟨j, hj2⟩).id =
          ((tileW.layers.get ⟨i, hi⟩).features.get ⟨j, hj⟩).id) ∧
        (((tileWout.layers.get ⟨i, hi2⟩).features.get ⟨j, hj2⟩).ftype =
          ((tileW.layers.get ⟨i, hi⟩).features.get ⟨j, hj⟩).ftype) ∧
        (((tileWout.layers.get ⟨i, hi2⟩).features.get ⟨j, hj2⟩).geometry =
          ((tileW.layers.get ⟨i, hi⟩).features.get ⟨j, hj⟩).geometry) ∧
        matPairs (tileWout.layers.get ⟨i, hi2⟩).keys
            (tileWout.layers.get ⟨i, hi2⟩).values
            ((tileWout.layers.get ⟨i, hi2⟩).features.get ⟨j, hj2⟩).tags =
          (matPairs (tileW.layers.get ⟨i, hi⟩).keys
            (tileW.layers.get ⟨i, hi⟩).values
            ((tileW.layers.get ⟨i, hi⟩).features.get ⟨j, hj⟩).tags).filter
              (fun kv => tagKeyKept kv.1) :=
  C2_no_filter_tag_characterization gmU coordsU tileW tileWout (by rfl)

theorem compile_operator_ok_literal_array (rx : RegexModel) (op : Operator)
    (args : List Json) (l : List ExpressionValue)
    (h : ExpressionCompiler.compile_operator rx op args =
      .ok (.Literal (.ArrayV l))) :
    ∃ xs, op = Operator.Literal ∧ args = [Json.arr xs] := by
  cases op <;> rw [ExpressionCompiler.compile_operator.eq_def] at h
  all_goals try dsimp only at h
  case Literal =>
    split at h
    · next a =>
      cases a with
      | arr xs => exact ⟨xs, rfl, rfl⟩
      | null => simp [ExpressionValue.from_json_value] at h
      | bool b => simp [ExpressionValue.from_json_value] at h
      | num n => cases n <;> simp [ExpressionValue.from_json_value] at h
      | str s => simp [ExpressionValue.from_json_value] at h
      | obj f => simp [ExpressionValue.from_json_value] at h
    · simp at h
  all_goals try simp only [bind, Except.bind, pure, Except.pure] at h
  all_goals (repeat' split at h)
  all_goals simp_all

theorem compile_ok_literal_array (rx : RegexModel) (b : Json)
    (l : List ExpressionValue)
    (h : ExpressionCompiler.compile rx b = .ok (.Literal (.ArrayV l))) :
    isLiteralArrayArg b = true := by
  cases b with
  | arr elems =>
    rw [ExpressionCompiler.compile.eq_def] at h
    dsimp only at h
    cases elems with
    | nil => simp at h
    | cons op args =>
      dsimp only at h
      cases hstr : op.asStr with
      | none => rw [hstr] at h; simp at h
      | some s =>
        rw [hstr] at h
        dsimp only at h
        cases hop : Operator.from_str s with
        | error e => rw [hop] at h; simp at h
        | ok oper =>
          rw [hop] at h
          dsimp only at h
          obtain ⟨xs, hoper, hargs⟩ :=
            compile_operator_ok_literal_array rx oper args l h
          subst hoper
          subst hargs
          cases op with
          | str s2 =>
            simp only [Json.asStr, Option.some.injEq] at hstr
            subst hstr
            simp [isLiteralArrayArg, Json.asStr, hop]
          | null => simp [Json.asStr] at hstr
          | bool b2 => simp [Json.asStr] at hstr
          | num n => simp [Json.asStr] at hstr
          | arr a2 => simp [Json.asStr] at hstr
          | obj f2 => simp [Json.asStr] at hstr
  | null => simp [ExpressionCompiler.compile] at h
  | bool b2 => simp [ExpressionCompiler.compile] at h
  | num n => cases n <;> simp [ExpressionCompiler.compile] at h
  | str s => simp [ExpressionCompiler.compile] at h
  | obj f => simp [ExpressionCompiler.compile] at h

theorem isLiteralArrayArg_compile (rx : RegexModel) (b : Json)
    (h : isLiteralArrayArg b = true) :
    ∃ l, ExpressionCompiler.compile rx b = .ok (.Literal (.ArrayV l)) := by
  cases b with
  | arr elems =>
    match elems, h with
    | [op, Json.arr xs], h =>
      cases op with
      | str s =>
        simp only [isLiteralArrayArg, Json.asStr] at h
        split at h
        · next heq =>
          exact ⟨ExpressionValue.from_json_list xs, by
            simp [ExpressionCompiler.compile, Json.asStr, heq,
              ExpressionCompiler.compile_operator,
              ExpressionValue.from_json_value]⟩
        · simp at h
      | null => simp [isLiteralArrayArg, Json.asStr] at h
      | bool b2 => simp [isLiteralArrayArg, Json.asStr] at h
      | num n => simp [isLiteralArrayArg, Json.asStr] at h
      | arr a2 => simp [isLiteralArrayArg, Json.asStr] at h
      | obj f2 => simp [isLiteralArrayArg, Json.asStr] at h
  | null => simp [isLiteralArrayArg] at h
  | bool b2 => simp [isLiteralArrayArg] at h
  | num n => simp [isLiteralArrayArg] at h
  | str s => simp [isLiteralArrayArg] at h
  | obj f => simp [isLiteralArrayArg] at h

theorem compile_wf_package (rx : RegexModel) :
    ∀ n : Nat,
    (∀ (op : Operator) (args : List Json), sizeOf args ≤ n →
      (ExpressionCompiler.compile_operator rx op args).isOk =
        wellFormedOperator rx op args) ∧
    (∀ xs : List Json, sizeOf xs ≤ n →
      (ExpressionCompiler.compileList rx xs).isOk = wellFormedList rx xs) ∧
    (∀ e : Json, sizeOf e ≤ n →
      (ExpressionCompiler.compile rx e).isOk = wellFormedExpr rx e) := by
  intro n
  induction n using Nat.strong_induction_on with
  | _ n ih =>
    have hList : ∀ xs : List Json, sizeOf xs ≤ n →
        (ExpressionCompiler.compileList rx xs).isOk = wellFormedList rx xs := by
      intro xs hle
      cases xs with
      | nil =>
        simp [ExpressionCompiler.compileList, wellFormedList, Except.isOk, Except.toBool]
      | cons x rest =>
        simp only [List.cons.sizeOf_spec] at hle
        have hcx := (ih (sizeOf x) (by omega)).2.2 x le_rfl
        have hcr := (ih (sizeOf rest) (by omega)).2.1 rest le_rfl
        simp only [ExpressionCompiler.compileList, wellFormedList]
        cases hc1 : ExpressionCompiler.compile rx x with
        | error e => simp [bind, Except.bind, Except.isOk, Except.toBool, hc1, ← hcx]
        | ok cx =>
          cases hc2 : ExpressionCompiler.compileList rx rest with
          | error e =>
            simp [bind, Except.bind, Except.isOk, Except.toBool, hc1, hc2, ← hcx, ← hcr]
          | ok crest =>
            simp [bind, Except.bind, pure, Except.pure, Except.isOk, Except.toBool, hc1, hc2,
              ← hcx, ← hcr]
    have hOp : ∀ (op : Operator) (args : List Json), sizeOf args ≤ n →
        (ExpressionCompiler.compile_operator rx op args).isOk =
          wellFormedOperator rx op args := by
      intro op args hle
      cases op
      case Equal =>
        cases args with
        | nil =>
          simp [ExpressionCompiler.compile_operator, wellFormedOperator,
            Except.isOk, Except.toBool]
        | cons a args1 =>
          cases args1 with
          | nil =>
            simp [ExpressionCompiler.compile_operator, wellFormedOperator,
              Except.isOk, Except.toBool]
          | cons b args2 =>
            cases args2 with
            | cons c args3 =>
              simp [ExpressionCompiler.compile_operator, wellFormedOperator,
                Except.isOk, Except.toBool]
            | nil =>
              simp only [List.cons.sizeOf_spec, List.nil.sizeOf_spec] at hle
              have hca := (ih (sizeOf a) (by omega)).2.2 a le_rfl
              have hcb := (ih (sizeOf b) (by omega)).2.2 b le_rfl
              simp only [ExpressionCompiler.compile_operator, wellFormedOperator]
              cases hc1 : ExpressionCompiler.compile rx a with
              | error e => simp [bind, Except.bind, Except.isOk, Except.toBool, hc1, ← hca]
              | ok ca =>
                cases hc2 : ExpressionCompiler.compile rx b with
                | error e =>
                  simp [bind, Except.bind, Except.isOk, Except.toBool, hc1, hc2, ← hca, ← hcb]
                | ok cb =>
                  simp [bind, Except.bind, pure, Except.pure, Except.isOk, Except.toBool,
                    hc1, hc2, ← hca, ← hcb]
      case NotEqual =>
        cases args with
        | nil =>
          simp [ExpressionCompiler.compile_operator, wellFormedOperator,
            Except.isOk, Except.toBool]
        | cons a args1 =>
          cases args1 with
          | nil =>
            simp [ExpressionCompiler.compile_operator, wellFormedOperator,
              Except.isOk, Except.toBool]
          | cons b args2 =>
            cases args2 with
            | cons c args3 =>
              simp [ExpressionCompiler.compile_operator, wellFormedOperator,
                Except.isOk, Except.toBool]
            | nil =>
              simp only [List.cons.sizeOf_spec, List.nil.sizeOf_spec] at hle
              have hca := (ih (sizeOf a) (by omega)).2.2 a le_rfl
              have hcb := (ih (sizeOf b) (by omega)).2.2 b le_rfl
              simp only [ExpressionCompiler.compile_operator, wellFormedOperator]
              cases hc1 : ExpressionCompiler.compile rx a with
              | error e => simp [bind, Except.bind, Except.isOk, Except.toBool, hc1, ← hca]
              | ok ca =>
                cases hc2 : ExpressionCompiler.compile rx b with
                | error e =>
                  simp [bind, Except.bind, Except.isOk, Except.toBool, hc1, hc2, ← hca, ← hcb]
                | ok cb =>
                  simp [bind, Except.bind, pure, Except.pure, Except.isOk, Except.toBool,
                    hc1, hc2, ← hca, ← hcb]
      case LessThan =>
        cases args with
        | nil =>
          simp [ExpressionCompiler.compile_operator, wellFormedOperator,
            Except.isOk, Except.toBool]
        | cons a args1 =>
          cases args1 with
          | nil =>
            simp [ExpressionCompiler.compile_operator, wellFormedOperator,
              Except.isOk, Except.toBool]
          | cons b args2 =>
            cases args2 with
            | cons c args3 =>
              simp [ExpressionCompiler.compile_operator, wellFormedOperator,
                Except.isOk, Except.toBool]
            | nil =>
              simp only [List.cons.sizeOf_spec, List.nil.sizeOf_spec] at hle
              have hca := (ih (sizeOf a) (by omega)).2.2 a le_rfl
              have hcb := (ih (sizeOf b) (by omega)).2.2 b le_rfl
              simp only [ExpressionCompiler.compile_operator, wellFormedOperator]
              cases hc1 : ExpressionCompiler.compile rx a with
              | error e => simp [bind, Except.bind, Except.isOk, Except.toBool, hc1, ← hca]
              | ok ca =>
                cases hc2 : ExpressionCompiler.compile rx b with
                | error e =>
                  simp [bind, Except.bind, Except.isOk, Except.toBool, hc1, hc2, ← hca, ← hcb]
                | ok cb =>
                  simp [bind, Except.bind, pure, Except.pure, Except.isOk, Except.toBool,
                    hc1, hc2, ← hca, ← hcb]
      case GreaterThan =>
        cases args with
        | nil =>
          simp [ExpressionCompiler.compile_operator, wellFormedOperator,
            Except.isOk, Except.toBool]
        | cons a args1 =>
          cases args1 with
          | nil =>
            simp [ExpressionCompiler.compile_operator, wellFormedOperator,
              Except.isOk, Except.toBool]
          | cons b args2 =>
            cases args2 with
            | cons c args3 =>
              simp [ExpressionCompiler.compile_operator, wellFormedOperator,
                Except.isOk, Except.toBool]
            | nil =>
              simp only [List.cons.sizeOf_spec, List.nil.sizeOf_spec] at hle
              have hca := (ih (sizeOf a) (by omega)).2.2 a le_rfl
              have hcb := (ih (sizeOf b) (by omega)).2.2 b le_rfl
              simp only [ExpressionCompiler.compile_operator, wellFormedOperator]
              cases hc1 : ExpressionCompiler.compile rx a with
              | error e => simp [bind, Except.bind, Except.isOk, Except.toBool, hc1, ← hca]
              | ok ca =>
                cases hc2 : ExpressionCompiler.compile rx b with
                | error e =>
                  simp [bind, Except.bind, Except.isOk, Except.toBool, hc1, hc2, ← hca, ← hcb]
                | ok cb =>
                  simp [bind, Except.bind, pure, Except.pure, Except.isOk, Except.toBool,
                    hc1, hc2, ← hca, ← hcb]
      case LessThanOrEqual =>
        cases args with
        | nil =>
          simp [ExpressionCompiler.compile_operator, wellFormedOperator,
            Except.isOk, Except.toBool]
        | cons a args1 =>
          cases args1 with
          | nil =>
            simp [ExpressionCompiler.compile_operator, wellFormedOperator,
              Except.isOk, Except.toBool]
          | cons b args2 =>
            cases args2 with
            | cons c args3 =>
              simp [ExpressionCompiler.compile_operator, wellFormedOperator,
                Except.isOk, Except.toBool]
            | nil =>
              simp only [List.cons.sizeOf_spec, List.nil.sizeOf_spec] at hle
              have hca := (ih (sizeOf a) (by omega)).2.2 a le_rfl
              have hcb := (ih (sizeOf b) (by omega)).2.2 b le_rfl
              simp only [ExpressionCompiler.compile_operator, wellFormedOperator]
              cases hc1 : ExpressionCompiler.compile rx a with
              | error e => simp [bind, Except.bind, Except.isOk, Except.toBool, hc1, ← hca]
              | ok ca =>
                cases hc2 : ExpressionCompiler.compile rx b with
                | error e =>
                  simp [bind, Except.bind, Except.isOk, Except.toBool, hc1, hc2, ← hca, ← hcb]
                | ok cb =>
                  simp [bind, Except.bind, pure, Except.pure, Except.isOk, Except.toBool,
                    hc1, hc2, ← hca, ← hcb]
      case GreaterThanOrEqual =>
        cases args with
        | nil =>
          simp [ExpressionCompiler.compile_operator, wellFormedOperator,
            Except.isOk, Except.toBool]
        | cons a args1 =>
          cases args1 with
          | nil =>
            simp [ExpressionCompiler.compile_operator, wellFormedOperator,
              Except.isOk, Except.toBool]
          | cons b args2 =>
            cases args2 with
            | cons c args3 =>
              simp [ExpressionCompiler.compile_operator, wellFormedOperator,
                Except.isOk, Except.toBool]
            | nil =>
              simp only [List.cons.sizeOf_spec, List.nil.sizeOf_spec] at hle
              have hca := (ih (sizeOf a) (by omega)).2.2 a le_rfl
              have hcb := (ih (sizeOf b) (by omega)).2.2 b le_rfl
              simp only [ExpressionCompiler.compile_operator, wellFormedOperator]
              cases hc1 : ExpressionCompiler.compile rx a with
              | error e => simp [bind, Except.bind, Except.isOk, Except.toBool, hc1, ← hca]
              | ok ca =>
                cases hc2 : ExpressionCompiler.compile rx b with
                | error e =>
                  simp [bind, Except.bind, Except.isOk, Except.toBool, hc1, hc2, ← hca, ← hcb]
                | ok cb =>
                  simp [bind, Except.bind, pure, Except.pure, Except.isOk, Except.toBool,
                    hc1, hc2, ← hca, ← hcb]
      case Any =>
        have h2 := hList args hle
        simp only [ExpressionCompiler.compile_operator, wellFormedOperator]
        cases hc : ExpressionCompiler.compileList rx args with
        | error e => simp [bind, Except.bind, Except.isOk, Except.toBool, hc, ← h2]
        | ok l =>
          simp [bind, Except.bind, pure, Except.pure, Except.isOk, Except.toBool, hc, ← h2]
      case All =>
        have h2 := hList args hle
        simp only [ExpressionCompiler.compile_operator, wellFormedOperator]
        cases hc : ExpressionCompiler.compileList rx args with
        | error e => simp [bind, Except.bind, Except.isOk, Except.toBool, hc, ← h2]
        | ok l =>
          simp [bind, Except.bind, pure, Except.pure, Except.isOk, Except.toBool, hc, ← h2]
      case None =>
        have h2 := hList args hle
        simp only [ExpressionCompiler.compile_operator, wellFormedOperator]
        cases hc : ExpressionCompiler.compileList rx args with
        | error e => simp [bind, Except.bind, Except.isOk, Except.toBool, hc, ← h2]
        | ok l =>
          simp [bind, Except.bind, pure, Except.pure, Except.isOk, Except.toBool, hc, ← h2]
      case Not =>
        cases args with
        | nil =>
          simp [ExpressionCompiler.compile_operator, wellFormedOperator,
            Except.isOk, Except.toBool]
        | cons a args1 =>
          cases args1 with
          | cons b args2 =>
            simp [ExpressionCompiler.compile_operator, wellFormedOperator,
              Except.isOk, Except.toBool]
          | nil =>
            simp only [List.cons.sizeOf_spec, List.nil.sizeOf_spec] at hle
            have hca := (ih (sizeOf a) (by omega)).2.2 a le_rfl
            simp only [ExpressionCompiler.compile_operator, wellFormedOperator]
            cases hc1 : ExpressionCompiler.compile rx a with
            | error e => simp [bind, Except.bind, Except.isOk, Except.toBool, hc1, ← hca]
            | ok ca =>
              simp [bind, Except.bind, pure, Except.pure, Except.isOk, Except.toBool, hc1,
                ← hca]
      case Boolean =>
        cases args with
        | nil =>
          simp [ExpressionCompiler.compile_operator, wellFormedOperator,
            Except.isOk, Except.toBool]
        | cons a args1 =>
          cases args1 with
          | cons b args2 =>
            simp [ExpressionCompiler.compile_operator, wellFormedOperator,
              Except.isOk, Except.toBool]
          | nil =>
            simp only [List.cons.sizeOf_spec, List.nil.sizeOf_spec] at hle
            have hca := (ih (sizeOf a) (by omega)).2.2 a le_rfl
            simp only [ExpressionCompiler.compile_operator, wellFormedOperator]
            cases hc1 : ExpressionCompiler.compile rx a with
            | error e => simp [bind, Except.bind, Except.isOk, Except.toBool, hc1, ← hca]
            | ok ca =>
              simp [bind, Except.bind, pure, Except.pure, Except.isOk, Except.toBool, hc1,
                ← hca]
      case StartsWith =>
        cases args with
        | nil =>
          simp [ExpressionCompiler.compile_operator, wellFormedOperator,
            Except.isOk, Except.toBool]
        | cons a args1 =>
          cases args1 with
          | nil =>
            simp [ExpressionCompiler.compile_operator, wellFormedOperator,
              Except.isOk, Except.toBool]
          | cons b args2 =>
            cases args2 with
            | cons c args3 =>
              simp [ExpressionCompiler.compile_operator, wellFormedOperator,
                Except.isOk, Except.toBool]
            | nil =>
              simp only [List.cons.sizeOf_spec, List.nil.sizeOf_spec] at hle
              have hca := (ih (sizeOf a) (by omega)).2.2 a le_rfl
              simp only [ExpressionCompiler.compile_operator, wellFormedOperator]
              cases hc1 : ExpressionCompiler.compile rx a with
              | error e => simp [bind, Except.bind, Except.isOk, Except.toBool, hc1, ← hca]
              | ok ca =>
                cases hstr : b.asStr with
                | none =>
                  simp [bind, Except.bind, Except.isOk, Except.toBool, hc1, hstr, ← hca]
                | some pre =>
                  simp [bind, Except.bind, pure, Except.pure, Except.isOk, Except.toBool,
                    hc1, hstr, ← hca]
      case EndsWith =>
        cases args with
        | nil =>
          simp [ExpressionCompiler.compile_operator, wellFormedOperator,
            Except.isOk, Except.toBool]
        | cons a args1 =>
          cases args1 with
          | nil =>
            simp [ExpressionCompiler.compile_operator, wellFormedOperator,
              Except.isOk, Except.toBool]
          | cons b args2 =>
            cases args2 with
            | cons c args3 =>
              simp [ExpressionCompiler.compile_operator, wellFormedOperator,
                Except.isOk, Except.toBool]
            | nil =>
              simp only [List.cons.sizeOf_spec, List.nil.sizeOf_spec] at hle
              have hca := (ih (sizeOf a) (by omega)).2.2 a le_rfl
              simp only [ExpressionCompiler.compile_operator, wellFormedOperator]
              cases hc1 : ExpressionCompiler.compile rx a with
              | error e => simp [bind, Except.bind, Except.isOk, Except.toBool, hc1, ← hca]
              | ok ca =>
                cases hstr : b.asStr with
                | none =>
                  simp [bind, Except.bind, Except.isOk, Except.toBool, hc1, hstr, ← hca]
                | some pre =>
                  simp [bind, Except.bind, pure, Except.pure, Except.isOk, Except.toBool,
                    hc1, hstr, ← hca]
      case RegexMatch =>
        cases args with
        | nil =>
          simp [ExpressionCompiler.compile_operator, wellFormedOperator,
            Except.isOk, Except.toBool]
        | cons a args1 =>
          cases args1 with
          | nil =>
            simp [ExpressionCompiler.compile_operator, wellFormedOperator,
              Except.isOk, Except.toBool]
          | cons b args2 =>
            cases args2 with
            | cons c args3 =>
              simp [ExpressionCompiler.compile_operator, wellFormedOperator,
                Except.isOk, Except.toBool]
            | nil =>
              simp only [List.cons.sizeOf_spec, List.nil.sizeOf_spec] at hle
              have hca := (ih (sizeOf a) (by omega)).2.2 a le_rfl
              simp only [ExpressionCompiler.compile_operator, wellFormedOperator]
              cases hc1 : ExpressionCompiler.compile rx a with
              | error e => simp [bind, Except.bind, Except.isOk, Except.toBool, hc1, ← hca]
              | ok ca =>
                cases hstr : b.asStr with
                | none =>
                  simp [bind, Except.bind, Except.isOk, Except.toBool, hc1, hstr, ← hca]
                | some pat =>
                  cases hv : rx.valid pat <;>
                    simp [bind, Except.bind, pure, Except.pure, Except.isOk, Except.toBool,
                      hc1, hstr, hv, ← hca]
      case RegexCapture =>
        cases args with
        | nil =>
          simp [ExpressionCompiler.compile_operator, wellFormedOperator,
            Except.isOk, Except.toBool]
        | cons a args1 =>
          cases args1 with
          | nil =>
            simp [ExpressionCompiler.compile_operator, wellFormedOperator,
              Except.isOk, Except.toBool]
          | cons b args2 =>
            cases args2 with
            | nil =>
              simp [ExpressionCompiler.compile_operator, wellFormedOperator,
                Except.isOk, Except.toBool]
            | cons c args3 =>
              simp only [List.cons.sizeOf_spec] at hle
              have hca := (ih (sizeOf a) (by omega)).2.2 a le_rfl
              simp only [ExpressionCompiler.compile_operator, wellFormedOperator]
              cases hc1 : ExpressionCompiler.compile rx a with
              | error e => simp [bind, Except.bind, Except.isOk, Except.toBool, hc1, ← hca]
              | ok ca =>
                cases hstr : b.asStr with
                | none =>
                  simp [bind, Except.bind, Except.isOk, Except.toBool, hc1, hstr, ← hca]
                | some pat =>
                  cases hu : c.asU64 with
                  | none =>
                    simp [bind, Except.bind, Except.isOk, Except.toBool, hc1, hstr, hu, ← hca]
                  | some g =>
                    cases hv : rx.valid pat <;>
                      simp [bind, Except.bind, pure, Except.pure, Except.isOk, Except.toBool,
                        hc1, hstr, hu, hv, ← hca]
      case In =>
        cases args with
        | nil =>
          simp [ExpressionCompiler.compile_operator, wellFormedOperator,
            Except.isOk, Except.toBool]
        | cons a args1 =>
          cases args1 with
          | nil =>
            simp [ExpressionCompiler.compile_operator, wellFormedOperator,
              Except.isOk, Except.toBool]
          | cons b args2 =>
            cases args2 with
            | cons c args3 =>
              simp [ExpressionCompiler.compile_operator, wellFormedOperator,
                Except.isOk, Except.toBool]
            | nil =>
              simp only [List.cons.sizeOf_spec, List.nil.sizeOf_spec] at hle
              have hca := (ih (sizeOf a) (by omega)).2.2 a le_rfl
              have hcb := (ih (sizeOf b) (by omega)).2.2 b le_rfl
              simp only [ExpressionCompiler.compile_operator, wellFormedOperator]
              cases hc1 : ExpressionCompiler.compile rx a with
              | error e => simp [bind, Except.bind, Except.isOk, Except.toBool, hc1, ← hca]
              | ok ca =>
                cases hc2 : ExpressionCompiler.compile rx b with
                | error e =>
                  simp [bind, Except.bind, Except.isOk, Except.toBool, hc1, hc2, ← hca, ← hcb]
                | ok cb =>
                  rw [hc1] at hca
                  rw [hc2] at hcb
                  have hwa : wellFormedExpr rx a = true := by rw [← hca]; rfl
                  have hwb : wellFormedExpr rx b = true := by rw [← hcb]; rfl
                  simp only [bind, Except.bind, hc1, hc2, hwa, hwb,
                    Bool.true_and]
                  split
                  · next arrv =>
                    simp [pure, Except.pure, Except.isOk, Except.toBool,
                      compile_ok_literal_array rx b arrv hc2]
                  · next x hne =>
                    cases hsh : isLiteralArrayArg b with
                    | false => simp [Except.isOk, Except.toBool]
                    | true =>
                      obtain ⟨l2, hcl⟩ := isLiteralArrayArg_compile rx b hsh
                      rw [hc2] at hcl
                      exact absurd (Except.ok.inj hcl)
                        (by intro hh; exact hne l2 hh)
      case Literal =>
        cases args with
        | nil =>
          simp [ExpressionCompiler.compile_operator, wellFormedOperator,
            Except.isOk, Except.toBool]
        | cons a args1 =>
          cases args1 with
          | nil =>
            simp [ExpressionCompiler.compile_operator, wellFormedOperator,
              Except.isOk, Except.toBool]
          | cons b args2 =>
            simp [ExpressionCompiler.compile_operator, wellFormedOperator,
              Except.isOk, Except.toBool]
      case Tag =>
        cases args with
        | nil =>
          simp [ExpressionCompiler.compile_operator, wellFormedOperator,
            Except.isOk, Except.toBool]
        | cons a args1 =>
          cases args1 with
          | nil =>
            cases hstr : a.asStr with
            | none =>
              simp [ExpressionCompiler.compile_operator, wellFormedOperator,
                hstr, Except.isOk, Except.toBool]
            | some s =>
              simp [ExpressionCompiler.compile_operator, wellFormedOperator,
                hstr, Except.isOk, Except.toBool]
          | cons b args2 =>
            simp [ExpressionCompiler.compile_operator, wellFormedOperator,
              Except.isOk, Except.toBool]
      case Key =>
        cases args with
        | nil =>
          simp [ExpressionCompiler.compile_operator, wellFormedOperator,
            Except.isOk, Except.toBool]
        | cons a args1 =>
          simp [ExpressionCompiler.compile_operator, wellFormedOperator,
            Except.isOk, Except.toBool]
      case Type' =>
        cases args with
        | nil =>
          simp [ExpressionCompiler.compile_operator, wellFormedOperator,
            Except.isOk, Except.toBool]
        | cons a args1 =>
          simp [ExpressionCompiler.compile_operator, wellFormedOperator,
            Except.isOk, Except.toBool]
    have hExpr : ∀ e : Json, sizeOf e ≤ n →
        (ExpressionCompiler.compile rx e).isOk = wellFormedExpr rx e := by
      intro e hle
      cases e with
      | null => simp [ExpressionCompiler.compile, wellFormedExpr, Except.isOk, Except.toBool]
      | bool b => simp [ExpressionCompiler.compile, wellFormedExpr, Except.isOk, Except.toBool]
      | num m =>
        cases m <;> simp [ExpressionCompiler.compile, wellFormedExpr, Except.isOk, Except.toBool]
      | str s => simp [ExpressionCompiler.compile, wellFormedExpr, Except.isOk, Except.toBool]
      | obj f => simp [ExpressionCompiler.compile, wellFormedExpr, Except.isOk, Except.toBool]
      | arr elems =>
        cases elems with
        | nil => simp [ExpressionCompiler.compile, wellFormedExpr, Except.isOk, Except.toBool]
        | cons op args =>
          simp only [Json.arr.sizeOf_spec, List.cons.sizeOf_spec] at hle
          cases hstr : op.asStr with
          | none =>
            simp [ExpressionCompiler.compile, wellFormedExpr, hstr, Except.isOk, Except.toBool]
          | some s =>
            cases hop : Operator.from_str s with
            | error e2 =>
              simp [ExpressionCompiler.compile, wellFormedExpr, hstr, hop,
                Except.isOk, Except.toBool]
            | ok oper =>
              have h3 := hOp oper args (by omega)
              simp [ExpressionCompiler.compile, wellFormedExpr, hstr, hop, h3]
    exact ⟨hOp, hList, hExpr⟩

/-- C9 counterexample: the two-element array `["tag", 5]` is not
malformed per the claim's enumerated contract (`tag` is a known operator of
arity 1, and the argument is a scalar), yet compilation fails, because `tag`
additionally requires its argument to be a string. -/
theorem C9_counterexample :
    ExpressionCompiler.compile rxU jsonTag5 =
      .error ("Tag operator requires string argument") ∧
    claimMalformed rxU jsonTag5 = false := by
  constructor
  · simp [jsonTag5, ExpressionCompiler.compile,
      ExpressionCompiler.compile_operator, Json.asStr, Operator.from_str]
  · simp [jsonTag5, claimMalformed, claimMalformedList, claimFixedArity,
      Json.asStr, Operator.from_str]

/-- C9 (amended): expression compilation succeeds exactly on the
well-formed inputs described by `wellFormedExpr`: beyond the claim's
enumerated failure causes (empty array, non-string first element, unknown
operator tag, fixed-arity mismatch, invalid regex pattern, non-array second
`in` argument, bare object), compilation also fails on a non-string second
argument to `starts-with`/`ends-with`, a non-string pattern or non-numeric
group index or fewer than three arguments for the regex operators, a
non-string `tag` argument, and a second `in` argument that is not of the
shape `["literal", [...]]`. -/
theorem C9_compile_ok_iff_wellformed (rx : RegexModel) (e : Json) :
    (ExpressionCompiler.compile rx e).isOk = wellFormedExpr rx e :=
  (compile_wf_package rx (sizeOf e)).2.2 e le_rfl
